import Mathlib

/-!
Verification of the media-search segment pipeline (Go sources
`pkg/commands/segment_extractor.go` and the media-assembly command file).

Go strings are embedded as `List Char`; Go `int` as `Int`, with Go's
truncated division `Int.tdiv` / `Int.tmod`, the two's-complement wrapping of
64-bit sums made explicit through `wrap64`, and `strconv.Atoi`'s `int64`
range error modelled in `goAtoi`; fallible operations return `Option`.
-/

/-- A Go string, embedded as its list of characters. -/
abbrev GoString := List Char

/-- Prepend a character to the first field of a split result. -/
def consHead (x : Char) : List GoString → List GoString
  | [] => [[x]]            -- unreachable: a split result is never empty
  | h :: t => (x :: h) :: t

/-- `strings.Split(s, ":")` for a single-character separator: splits at every
occurrence of `c`; the empty string splits to `[""]`. -/
def splitOnChar (c : Char) : GoString → List GoString
  | [] => [[]]
  | x :: xs =>
    if x = c then [] :: splitOnChar c xs else consHead x (splitOnChar c xs)

/-- `strings.Join(parts, ",")` / `strings.Join` with a one-character separator,
used via `String.intercalate`-style folding. -/
def joinWith (sep : GoString) : List GoString → GoString
  | [] => []
  | [s] => s
  | s :: rest => s ++ sep ++ joinWith sep rest

/-- A decimal digit character. -/
def isDigitChar (c : Char) : Bool := '0' ≤ c && c ≤ '9'

/-- Accumulating decimal parser: consumes the remaining characters, failing on
the first non-digit (the digits-only core of Go `strconv.Atoi`). -/
def parseDigitsAux : List Char → Nat → Option Nat
  | [], acc => some acc
  | c :: cs, acc =>
    if isDigitChar c then parseDigitsAux cs (acc * 10 + (c.toNat - '0'.toNat))
    else none

/-- Parse a non-empty all-digit string to a natural number. -/
def parseDigits : List Char → Option Nat
  | [] => none
  | cs => parseDigitsAux cs 0

/-- The syntactic reading of `strconv.Atoi`'s input: an optional sign
followed by one or more decimal digits, evaluated without any range bound
(the digit-accumulation loop shared by `Atoi`'s fast path and
`ParseInt`). -/
def goAtoiRaw : GoString → Option Int
  | [] => none
  | c :: rest =>
    if c = '+' then (parseDigits rest).map (fun n => (n : Int))
    else if c = '-' then (parseDigits rest).map (fun n => -(n : Int))
    else (parseDigits (c :: rest)).map (fun n => (n : Int))

/-- `strconv.Atoi` on a 64-bit platform: the syntactic value, failing with a
range error (`ErrRange`, a non-nil `err`) exactly when it lies outside the
`int64` range `[-2^63, 2^63)`.  (Strings short enough for `Atoi`'s fast path
cannot overflow, longer ones go through `ParseInt`'s cutoff checks; either
way `err == nil` iff the value is syntactically valid and in range.) -/
def goAtoi (s : GoString) : Option Int :=
  match goAtoiRaw s with
  | some v => if -(2 ^ 63) ≤ v ∧ v < 2 ^ 63 then some v else none
  | none => none

/-- Two's-complement wrapping of Go's 64-bit `int` arithmetic: the value an
`int64` expression evaluates to, i.e. the representative of `x` modulo `2^64`
inside `[-2^63, 2^63)`.  Wrapping the whole sum once agrees with Go's wrapping
of every intermediate `+`/`*`, because reduction modulo `2^64` is a ring
homomorphism. -/
def wrap64 (x : Int) : Int := (x + 2 ^ 63) % 2 ^ 64 - 2 ^ 63

/-- Decimal digits of a natural number, most significant first, prepended to
`acc` (the core of `fmt`'s integer formatting).  The `fuel` argument makes the
recursion structural; it is always called with `fuel > n`, which strictly
exceeds the number of division steps, so the `0` branch is unreachable. -/
def natDigitsCore : Nat → Nat → List Char → List Char
  | 0, _, acc => acc
  | fuel + 1, n, acc =>
    if n < 10 then Char.ofNat ('0'.toNat + n) :: acc
    else natDigitsCore fuel (n / 10) (Char.ofNat ('0'.toNat + n % 10) :: acc)

/-- Decimal rendering of a natural number, no sign, no padding. -/
def natDigits (n : Nat) : List Char := natDigitsCore (n + 1) n []

/-- Go `fmt.Sprintf("%02d", n)`: decimal rendering of `n`, zero-padded on the
left to overall width 2, the sign (for negative `n`) counting toward the
width. -/
def goFmt02d (n : Int) : GoString :=
  if n < 0 then
    -- a negative number renders as '-' followed by at least one digit, so it
    -- already has width ≥ 2 and receives no padding
    '-' :: natDigits n.natAbs
  else
    let d := natDigits n.toNat
    if d.length < 2 then '0' :: d else d

/-- `formatSeconds` from the assembly command: renders a second count as
`HH:MM:SS` using Go's truncated integer division. -/
def formatSeconds (totalSeconds : Int) : GoString :=
  let hours := totalSeconds.tdiv 3600
  let minutes := (totalSeconds.tmod 3600).tdiv 60
  let seconds := totalSeconds.tmod 60
  goFmt02d hours ++ (':' :: (goFmt02d minutes ++ (':' :: goFmt02d seconds)))

/-- The component-parsing step shared by `correctTimestamp`'s guards: the
string must split on ':' into exactly three parts (`len(parts) != 3` fails)
and each part must `Atoi`-parse (`errH != nil || errM != nil || errS != nil`
fails). -/
def parseTriple (s : GoString) : Option (Int × Int × Int) :=
  match splitOnChar ':' s with
  | [p0, p1, p2] =>
    match goAtoi p0, goAtoi p1, goAtoi p2 with
    | some h, some m, some sec => some (h, m, sec)
    | _, _, _ => none
  | _ => none

/-- `correctTimestamp` from the assembly command: repairs an out-of-range
`HH:MM:SS` timestamp, first by reinterpreting `H:M` as minutes:seconds, then
by clamping to the video length; strings that do not split into exactly three
integer components pass through unchanged.  The two guard sums are computed
in Go's wrapping 64-bit `int` arithmetic (`wrap64`). -/
def correctTimestamp (timestampStr : GoString) (videoLength : Int) : GoString :=
  match parseTriple timestampStr with
  | some (h, m, s) =>
    let originalSeconds := wrap64 (h * 3600 + m * 60 + s)
    if originalSeconds ≤ videoLength then timestampStr
    else
      let correctedSeconds := wrap64 (h * 60 + m)
      if correctedSeconds ≤ videoLength then
        '0' :: '0' :: ':' :: (goFmt02d h ++ (':' :: goFmt02d m))
      else formatSeconds videoLength
  | none => timestampStr

/-- The (integer-triple) denotation of a timestamp string: defined exactly when
the string splits on ':' into three `Atoi`-parsable components, in which case it
is `H*3600 + M*60 + S` seconds. -/
def timestampValue (s : GoString) : Option Int :=
  (parseTriple s).map (fun t => t.1 * 3600 + t.2.1 * 60 + t.2.2)

-- Sanity examples from the spec's test vectors (length 3600):
example : correctTimestamp "00:45:00".toList 3600 = "00:45:00".toList := by decide
example : correctTimestamp "45:30:00".toList 3600 = "00:45:30".toList := by decide
example : correctTimestamp "99:99:99".toList 3600 = "01:00:00".toList := by decide
example : correctTimestamp "bad:value:x".toList 3600 = "bad:value:x".toList := by decide

/-! ### Round-trip lemmas: formatting then re-parsing recovers the value -/

theorem natDigitsCore_ne_nil_of_acc (fuel n : Nat) (acc : List Char) (h : acc ≠ []) :
    natDigitsCore fuel n acc ≠ [] := by
  induction fuel generalizing n acc with
  | zero => simpa [natDigitsCore]
  | succ fuel ih =>
    simp only [natDigitsCore]
    split
    · simp
    · exact ih _ _ (by simp)

theorem natDigits_ne_nil (n : Nat) : natDigits n ≠ [] := by
  simp only [natDigits, natDigitsCore]
  split
  · simp
  · exact natDigitsCore_ne_nil_of_acc _ _ _ (by simp)

theorem mem_natDigitsCore (fuel n : Nat) (acc : List Char) (c : Char)
    (h : c ∈ natDigitsCore fuel n acc) :
    c ∈ acc ∨ ∃ d, d < 10 ∧ c = Char.ofNat ('0'.toNat + d) := by
  induction fuel generalizing n acc with
  | zero => exact Or.inl (by simpa [natDigitsCore] using h)
  | succ fuel ih =>
    simp only [natDigitsCore] at h
    split at h
    · rcases List.mem_cons.mp h with h | h
      · exact Or.inr ⟨n, by omega, h⟩
      · exact Or.inl h
    · rcases ih _ _ h with h | h
      · rcases List.mem_cons.mp h with h | h
        · exact Or.inr ⟨n % 10, Nat.mod_lt _ (by omega), h⟩
        · exact Or.inl h
      · exact Or.inr h

theorem digitChar_isDigit {d : Nat} (h : d < 10) :
    isDigitChar (Char.ofNat ('0'.toNat + d)) = true := by
  interval_cases d <;> decide

theorem digitChar_val {d : Nat} (h : d < 10) :
    (Char.ofNat ('0'.toNat + d)).toNat - '0'.toNat = d := by
  interval_cases d <;> decide

theorem digitChar_ne_colon {d : Nat} (h : d < 10) : Char.ofNat ('0'.toNat + d) ≠ ':' := by
  interval_cases d <;> decide

theorem digitChar_ne_plus {d : Nat} (h : d < 10) : Char.ofNat ('0'.toNat + d) ≠ '+' := by
  interval_cases d <;> decide

theorem digitChar_ne_minus {d : Nat} (h : d < 10) : Char.ofNat ('0'.toNat + d) ≠ '-' := by
  interval_cases d <;> decide

/-- `10 ^ (number of digits)` companion of `natDigitsCore`, used to state the
parser/formatter round trip. -/
def tenPowCore : Nat → Nat → Nat
  | 0, _ => 1
  | fuel + 1, n => if n < 10 then 10 else 10 * tenPowCore fuel (n / 10)

theorem parseDigitsAux_natDigitsCore (fuel : Nat) :
    ∀ n acc k, n < fuel →
      parseDigitsAux (natDigitsCore fuel n acc) k =
        parseDigitsAux acc (k * tenPowCore fuel n + n) := by
  induction fuel with
  | zero => intro n acc k h; omega
  | succ fuel ih =>
    intro n acc k h
    simp only [natDigitsCore, tenPowCore]
    split
    case isTrue hlt =>
      simp only [parseDigitsAux, digitChar_isDigit hlt, if_true]
      rw [digitChar_val hlt]
    case isFalse hge =>
      have hlt' : n / 10 < fuel := by
        have := Nat.div_lt_self (show 0 < n by omega) (show 1 < 10 by norm_num)
        omega
      rw [ih (n / 10) _ k hlt']
      have hmod : n % 10 < 10 := Nat.mod_lt _ (by norm_num)
      simp only [parseDigitsAux, digitChar_isDigit hmod, if_true]
      rw [digitChar_val hmod]
      congr 1
      have hdm : n / 10 * 10 + n % 10 = n := by omega
      set T := tenPowCore fuel (n / 10) with hT
      ring_nf
      omega

theorem parseDigitsAux_natDigits (n : Nat) : parseDigitsAux (natDigits n) 0 = some n := by
  rw [natDigits, parseDigitsAux_natDigitsCore (n + 1) n [] 0 (by omega)]
  simp [parseDigitsAux]

theorem parseDigits_natDigits (n : Nat) : parseDigits (natDigits n) = some n := by
  cases hnd : natDigits n with
  | nil => exact absurd hnd (natDigits_ne_nil n)
  | cons c cs =>
    have : parseDigits (c :: cs) = parseDigitsAux (c :: cs) 0 := rfl
    rw [this, ← hnd, parseDigitsAux_natDigits]

theorem natDigits_head_digit (n : Nat) {c : Char} {cs : List Char}
    (h : natDigits n = c :: cs) : ∃ d, d < 10 ∧ c = Char.ofNat ('0'.toNat + d) := by
  have hc : c ∈ natDigits n := h ▸ List.mem_cons_self _ _
  rcases mem_natDigitsCore _ _ _ _ hc with h' | h'
  · simp at h'
  · exact h'

theorem goAtoiRaw_natDigits (n : Nat) : goAtoiRaw (natDigits n) = some (n : Int) := by
  cases hnd : natDigits n with
  | nil => exact absurd hnd (natDigits_ne_nil n)
  | cons c cs =>
    obtain ⟨d, hd, rfl⟩ := natDigits_head_digit n hnd
    simp only [goAtoiRaw, if_neg (digitChar_ne_plus hd), if_neg (digitChar_ne_minus hd)]
    rw [← hnd, parseDigits_natDigits]
    rfl

theorem goAtoiRaw_goFmt02d (v : Int) : goAtoiRaw (goFmt02d v) = some v := by
  unfold goFmt02d
  split
  case isTrue hv =>
    simp only [goAtoiRaw, if_neg (show '-' ≠ '+' by decide), if_pos rfl]
    rw [parseDigits_natDigits]
    have : ((v.natAbs : Nat) : Int) = -v := Int.ofNat_natAbs_of_nonpos (le_of_lt hv)
    simp [this]
  case isFalse hv =>
    dsimp only
    split
    case isTrue hlen =>
      simp only [goAtoiRaw, if_neg (show '0' ≠ '+' by decide), if_neg (show '0' ≠ '-' by decide)]
      have h1 : parseDigits ('0' :: natDigits v.toNat) =
          parseDigitsAux ('0' :: natDigits v.toNat) 0 := rfl
      have h2 : parseDigitsAux ('0' :: natDigits v.toNat) 0 =
          parseDigitsAux (natDigits v.toNat) 0 := by
        simp [parseDigitsAux, isDigitChar]
      rw [h1, h2, parseDigitsAux_natDigits]
      simp [Int.toNat_of_nonneg (not_lt.mp hv)]
    case isFalse hlen =>
      rw [goAtoiRaw_natDigits]
      simp [Int.toNat_of_nonneg (not_lt.mp hv)]

/-- The `Atoi` of a `%02d`-formatted value: succeeds with the value exactly
when it lies in the `int64` range. -/
theorem goAtoi_goFmt02d (v : Int) :
    goAtoi (goFmt02d v) = if -(2 ^ 63) ≤ v ∧ v < 2 ^ 63 then some v else none := by
  simp only [goAtoi, goAtoiRaw_goFmt02d]

/-- A value `Atoi` accepts lies in the `int64` range. -/
theorem goAtoi_inRange {s : GoString} {v : Int} (hv : goAtoi s = some v) :
    -(2 ^ 63) ≤ v ∧ v < 2 ^ 63 := by
  unfold goAtoi at hv
  split at hv
  · split at hv
    · cases hv
      assumption
    · cases hv
  · cases hv

/-- `wrap64` is the identity on the `int64` range. -/
theorem wrap64_eq_self {x : Int} (h1 : -(2 ^ 63) ≤ x) (h2 : x < 2 ^ 63) :
    wrap64 x = x := by
  unfold wrap64
  omega

/-- Wrapping never increases a value that is at least `-2^63`. -/
theorem wrap64_le_self {x : Int} (h : -(2 ^ 63) ≤ x) : wrap64 x ≤ x := by
  unfold wrap64
  omega

/-- Truncated division by a positive divisor keeps a value inside the `int64`
range. -/
theorem tdiv_range {a : Int} (b : Int) (hb : 0 < b)
    (h1 : -(2 ^ 63) ≤ a) (h2 : a < 2 ^ 63) :
    -(2 ^ 63) ≤ a.tdiv b ∧ a.tdiv b < 2 ^ 63 := by
  rcases le_or_lt 0 a with ha | ha
  · have hnn := Int.tdiv_nonneg ha (le_of_lt hb)
    have hle : a.tdiv b ≤ a := by
      rw [Int.tdiv_eq_ediv ha (le_of_lt hb)]
      exact Int.ediv_le_self b ha
    omega
  · have h0 : (0 : Int) ≤ -a := by omega
    have hna : (-a).tdiv b = -(a.tdiv b) := Int.neg_tdiv a b
    have hnn := Int.tdiv_nonneg h0 (le_of_lt hb)
    have hle : (-a).tdiv b ≤ -a := by
      rw [Int.tdiv_eq_ediv h0 (le_of_lt hb)]
      exact Int.ediv_le_self b h0
    omega

theorem not_colon_mem_natDigits (n : Nat) : ':' ∉ natDigits n := by
  intro h
  rcases mem_natDigitsCore _ _ _ _ h with h' | ⟨d, hd, hc⟩
  · simp at h'
  · exact digitChar_ne_colon hd hc.symm

theorem not_colon_mem_goFmt02d (v : Int) : ':' ∉ goFmt02d v := by
  unfold goFmt02d
  split
  · intro h
    rcases List.mem_cons.mp h with h | h
    · exact absurd h (by decide)
    · exact not_colon_mem_natDigits _ h
  · dsimp only
    split
    · intro h
      rcases List.mem_cons.mp h with h | h
      · exact absurd h (by decide)
      · exact not_colon_mem_natDigits _ h
    · exact not_colon_mem_natDigits _

/-! ### `splitOnChar` lemmas -/

theorem consHead_ne_nil (x : Char) (l : List GoString) : consHead x l ≠ [] := by
  cases l <;> simp [consHead]

theorem splitOnChar_ne_nil (c : Char) (s : GoString) : splitOnChar c s ≠ [] := by
  cases s with
  | nil => simp [splitOnChar]
  | cons x xs =>
    simp only [splitOnChar]
    split
    · simp
    · exact consHead_ne_nil _ _

theorem splitOnChar_of_not_mem {c : Char} {s : GoString} (h : c ∉ s) :
    splitOnChar c s = [s] := by
  induction s with
  | nil => rfl
  | cons x xs ih =>
    have hx : ¬x = c := by rintro rfl; exact h (List.mem_cons_self _ _)
    have h' : c ∉ xs := fun hm => h (List.mem_cons_of_mem _ hm)
    simp [splitOnChar, ih h', hx, consHead]

theorem splitOnChar_append {c : Char} {a : GoString} (rest : GoString) (h : c ∉ a) :
    splitOnChar c (a ++ c :: rest) = a :: splitOnChar c rest := by
  induction a with
  | nil => simp [splitOnChar]
  | cons x xs ih =>
    have hx : ¬x = c := by rintro rfl; exact h (List.mem_cons_self _ _)
    have h' : c ∉ xs := fun hm => h (List.mem_cons_of_mem _ hm)
    simp only [List.cons_append, splitOnChar, if_neg hx, List.append_eq]
    rw [ih h']
    rfl

theorem splitOnChar_three {x y z : GoString} (hx : ':' ∉ x) (hy : ':' ∉ y) (hz : ':' ∉ z) :
    splitOnChar ':' (x ++ (':' :: (y ++ (':' :: z)))) = [x, y, z] := by
  rw [splitOnChar_append _ hx, splitOnChar_append _ hy, splitOnChar_of_not_mem hz]

/-! ### Denotation of the formatter outputs -/

theorem neg_tmod' (a b : Int) : (-a).tmod b = -(a.tmod b) := by
  simp only [Int.tmod_def, Int.neg_tdiv]
  ring

theorem tmod_tmod_60 (L : Int) : (L.tmod 3600).tmod 60 = L.tmod 60 := by
  have key : ∀ M : Int, 0 ≤ M → (M.tmod 3600).tmod 60 = M.tmod 60 := by
    intro M hM
    rw [Int.tmod_eq_emod hM (by norm_num),
        Int.tmod_eq_emod (Int.emod_nonneg M (by norm_num)) (by norm_num),
        Int.tmod_eq_emod hM (by norm_num)]
    exact Int.emod_emod_of_dvd M (by norm_num)
  rcases le_or_lt 0 L with hL | hL
  · exact key L hL
  · have k := key (-L) (by omega)
    simp only [neg_tmod'] at k
    omega

/-- Truncated remainder by a positive modulus lies strictly between `-b` and
`b`. -/
theorem tmod_bounds (a : Int) {b : Int} (hb : 0 < b) :
    -b < a.tmod b ∧ a.tmod b < b := by
  rcases le_or_lt 0 a with ha | ha
  · rw [Int.tmod_eq_emod ha (le_of_lt hb)]
    have h1 := Int.emod_nonneg a (ne_of_gt hb)
    have h2 := Int.emod_lt_of_pos a hb
    omega
  · have hna := neg_tmod' a b
    have h0 : (0 : Int) ≤ -a := by omega
    rw [Int.tmod_eq_emod h0 (le_of_lt hb)] at hna
    have h1 := Int.emod_nonneg (-a) (ne_of_gt hb)
    have h2 := Int.emod_lt_of_pos (-a) hb
    omega

/-- The `HH:MM:SS` decomposition of `formatSeconds` recombines to its
input. -/
theorem formatSeconds_value_eq (L : Int) :
    L.tdiv 3600 * 3600 + (L.tmod 3600).tdiv 60 * 60 + L.tmod 60 = L := by
  have h1 := Int.tmod_add_tdiv L 3600
  have h2 := Int.tmod_add_tdiv (L.tmod 3600) 60
  have h3 := tmod_tmod_60 L
  omega

theorem parseTriple_formatSeconds (L : Int) :
    parseTriple (formatSeconds L) =
      if -(2 ^ 63) ≤ L.tdiv 3600 ∧ L.tdiv 3600 < 2 ^ 63 then
        some (L.tdiv 3600, (L.tmod 3600).tdiv 60, L.tmod 60)
      else none := by
  unfold formatSeconds parseTriple
  rw [splitOnChar_three (not_colon_mem_goFmt02d _) (not_colon_mem_goFmt02d _)
        (not_colon_mem_goFmt02d _)]
  have hmb := tmod_bounds L (show (0 : Int) < 3600 by norm_num)
  have hmd := tdiv_range (a := L.tmod 3600) 60 (by norm_num) (by omega) (by omega)
  have hsb := tmod_bounds L (show (0 : Int) < 60 by norm_num)
  have hm : goAtoi (goFmt02d ((L.tmod 3600).tdiv 60)) = some ((L.tmod 3600).tdiv 60) := by
    rw [goAtoi_goFmt02d, if_pos hmd]
  have hs : goAtoi (goFmt02d (L.tmod 60)) = some (L.tmod 60) := by
    rw [goAtoi_goFmt02d, if_pos ⟨by omega, by omega⟩]
  by_cases hc : -(2 ^ 63) ≤ L.tdiv 3600 ∧ L.tdiv 3600 < 2 ^ 63
  · have hh : goAtoi (goFmt02d (L.tdiv 3600)) = some (L.tdiv 3600) := by
      rw [goAtoi_goFmt02d, if_pos hc]
    rw [if_pos hc]
    simp only [hh, hm, hs]
  · have hh : goAtoi (goFmt02d (L.tdiv 3600)) = none := by
      rw [goAtoi_goFmt02d, if_neg hc]
    rw [if_neg hc]
    simp only [hh, hm, hs]

theorem timestampValue_formatSeconds {L : Int} (h1 : -(2 ^ 63) ≤ L) (h2 : L < 2 ^ 63) :
    timestampValue (formatSeconds L) = some L := by
  rw [timestampValue, parseTriple_formatSeconds,
      if_pos (tdiv_range 3600 (by norm_num) h1 h2)]
  simp only [Option.map_some']
  congr 1
  exact formatSeconds_value_eq L

theorem parseTriple_corrected (h m : Int)
    (hh1 : -(2 ^ 63) ≤ h) (hh2 : h < 2 ^ 63) (hm1 : -(2 ^ 63) ≤ m) (hm2 : m < 2 ^ 63) :
    parseTriple ('0' :: '0' :: ':' :: (goFmt02d h ++ (':' :: goFmt02d m))) =
      some (0, h, m) := by
  unfold parseTriple
  have hsh : ('0' :: '0' :: ':' :: (goFmt02d h ++ (':' :: goFmt02d m))) =
      ['0', '0'] ++ (':' :: (goFmt02d h ++ (':' :: goFmt02d m))) := rfl
  rw [hsh, splitOnChar_three (by decide) (not_colon_mem_goFmt02d _) (not_colon_mem_goFmt02d _)]
  have h00 : goAtoi ['0', '0'] = some 0 := by decide
  have hha : goAtoi (goFmt02d h) = some h := by rw [goAtoi_goFmt02d, if_pos ⟨hh1, hh2⟩]
  have hma : goAtoi (goFmt02d m) = some m := by rw [goAtoi_goFmt02d, if_pos ⟨hm1, hm2⟩]
  simp only [h00, hha, hma]

theorem timestampValue_corrected (h m : Int)
    (hh1 : -(2 ^ 63) ≤ h) (hh2 : h < 2 ^ 63) (hm1 : -(2 ^ 63) ≤ m) (hm2 : m < 2 ^ 63) :
    timestampValue ('0' :: '0' :: ':' :: (goFmt02d h ++ (':' :: goFmt02d m))) =
      some (h * 60 + m) := by
  rw [timestampValue, parseTriple_corrected h m hh1 hh2 hm1 hm2]
  simp only [Option.map_some']
  congr 1
  ring

/-- Every component of a successful `parseTriple` lies in the `int64`
range. -/
theorem parseTriple_inRange {s : GoString} {h m sec : Int}
    (hp : parseTriple s = some (h, m, sec)) :
    (-(2 ^ 63) ≤ h ∧ h < 2 ^ 63) ∧ (-(2 ^ 63) ≤ m ∧ m < 2 ^ 63) ∧
      (-(2 ^ 63) ≤ sec ∧ sec < 2 ^ 63) := by
  unfold parseTriple at hp
  split at hp
  · split at hp
    · rename_i h0 h1 h2
      cases hp
      exact ⟨goAtoi_inRange h0, goAtoi_inRange h1, goAtoi_inRange h2⟩
    · cases hp
  · cases hp

/-! ### Behaviour of `correctTimestamp` -/

theorem correctTimestamp_of_parseTriple_none {s : GoString} (L : Int)
    (hp : parseTriple s = none) : correctTimestamp s L = s := by
  unfold correctTimestamp
  rw [hp]

theorem correctTimestamp_of_parseTriple_some {s : GoString} {h m sec : Int} (L : Int)
    (hp : parseTriple s = some (h, m, sec)) :
    correctTimestamp s L =
      if wrap64 (h * 3600 + m * 60 + sec) ≤ L then s
      else if wrap64 (h * 60 + m) ≤ L then
        '0' :: '0' :: ':' :: (goFmt02d h ++ (':' :: goFmt02d m))
      else formatSeconds L := by
  unfold correctTimestamp
  rw [hp]

/-- A timestamp whose wrapped second count is at most the video length passes
through the repair unchanged. -/
theorem correctTimestamp_of_wrap_le {s : GoString} {h m sec : Int} (L : Int)
    (hp : parseTriple s = some (h, m, sec))
    (hle : wrap64 (h * 3600 + m * 60 + sec) ≤ L) : correctTimestamp s L = s := by
  rw [correctTimestamp_of_parseTriple_some L hp, if_pos hle]

/-- For a video length at least `-2^63` (every representable length), the
formatted length re-enters the repair unchanged: either its hour field
overflows `Atoi`'s range and the string passes through unparsed, or it
re-parses to a wrapped value that is at most the length itself. -/
theorem correctTimestamp_formatSeconds_self (L : Int) (hL : -(2 ^ 63) ≤ L) :
    correctTimestamp (formatSeconds L) L = formatSeconds L := by
  have hps := parseTriple_formatSeconds L
  split at hps
  · refine correctTimestamp_of_wrap_le L hps ?_
    rw [formatSeconds_value_eq]
    exact wrap64_le_self hL
  · exact correctTimestamp_of_parseTriple_none L hps

/-- For a parseable timestamp with nonnegative components whose second count
does not overflow `int64`, and a representable nonnegative video length, the
repaired timestamp denotes a value in `[0, L]`. -/
theorem correctTimestamp_nonneg_bounds {s : GoString} {h m sec L : Int}
    (hp : parseTriple s = some (h, m, sec)) (hh : 0 ≤ h) (hm : 0 ≤ m) (hs : 0 ≤ sec)
    (hsum : h * 3600 + m * 60 + sec < 2 ^ 63) (hL : 0 ≤ L) (hL2 : L < 2 ^ 63) :
    ∃ v, timestampValue (correctTimestamp s L) = some v ∧ 0 ≤ v ∧ v ≤ L := by
  obtain ⟨⟨hh1, hh2⟩, ⟨hm1, hm2⟩, _⟩ := parseTriple_inRange hp
  have hw1 : wrap64 (h * 3600 + m * 60 + sec) = h * 3600 + m * 60 + sec :=
    wrap64_eq_self (by omega) hsum
  have hw2 : wrap64 (h * 60 + m) = h * 60 + m := wrap64_eq_self (by omega) (by omega)
  rw [correctTimestamp_of_parseTriple_some L hp, hw1, hw2]
  split_ifs with h1 h2
  · refine ⟨h * 3600 + m * 60 + sec, ?_, by omega, h1⟩
    rw [timestampValue, hp]
    rfl
  · exact ⟨h * 60 + m, timestampValue_corrected h m hh1 hh2 hm1 hm2, by omega, h2⟩
  · exact ⟨L, timestampValue_formatSeconds (by omega) hL2, hL, le_refl L⟩

/-- C1 (amended: no 64-bit overflow): when the input splits into three
`Atoi`-parsable components and neither guard sum `H*3600 + M*60 + S` nor
`H*60 + M` overflows the `int64` range, the repair keeps a valid value,
rewrites `H:M` as minutes:seconds when that fits, and clamps to the length
otherwise; a string without three integer components passes through
unchanged.  (With Go's wrapping `int` arithmetic an overflowing sum can wrap
below the length and the string then passes through unrepaired.) -/
theorem correctTimestamp_spec (s : GoString) (L : Int) :
    (∀ p0 p1 p2 h m sec,
        splitOnChar ':' s = [p0, p1, p2] →
        goAtoi p0 = some h → goAtoi p1 = some m → goAtoi p2 = some sec →
        -(2 ^ 63) ≤ h * 3600 + m * 60 + sec → h * 3600 + m * 60 + sec < 2 ^ 63 →
        -(2 ^ 63) ≤ h * 60 + m → h * 60 + m < 2 ^ 63 →
        correctTimestamp s L =
          if h * 3600 + m * 60 + sec ≤ L then s
          else if h * 60 + m ≤ L then
            '0' :: '0' :: ':' :: (goFmt02d h ++ (':' :: goFmt02d m))
          else formatSeconds L)
    ∧ (parseTriple s = none → correctTimestamp s L = s) := by
  constructor
  · intro p0 p1 p2 h m sec hsp h0 h1 h2 hb1 hb2 hb3 hb4
    have hp : parseTriple s = some (h, m, sec) := by
      unfold parseTriple
      rw [hsp]
      simp only [h0, h1, h2]
    rw [correctTimestamp_of_parseTriple_some L hp, wrap64_eq_self hb1 hb2,
        wrap64_eq_self hb3 hb4]
  · exact correctTimestamp_of_parseTriple_none L

/-- Witness for C1 at the spec's own test vector `"45:30:00"` with length
3600. -/
theorem correctTimestamp_spec_witness :
    correctTimestamp "45:30:00".toList 3600 =
      if (45 : Int) * 3600 + 30 * 60 + 0 ≤ 3600 then "45:30:00".toList
      else if (45 : Int) * 60 + 30 ≤ 3600 then
        '0' :: '0' :: ':' :: (goFmt02d 45 ++ (':' :: goFmt02d 30))
      else formatSeconds 3600 :=
  (correctTimestamp_spec "45:30:00".toList 3600).1 ['4', '5'] ['3', '0'] ['0', '0'] 45 30 0
    (by decide) (by decide) (by decide) (by decide) (by decide) (by decide) (by decide)
    (by decide)

/-- A timestamp whose hour field is `2^60`: each component is accepted by
`Atoi` (`2^60 < 2^63`), but the second count `2^60 * 3600` overflows
`int64`. -/
def bigHourStamp : GoString := "1152921504606846976:00:00".toList

/-- C1 counterexample: `bigHourStamp` splits into the integer components
`(2^60, 0, 0)` whose true second count (and corrected reinterpretation) far
exceed the length 3600, so the claim requires the clamp `formatSeconds 3600`;
but Go's wrapping `int` arithmetic evaluates `2^60 * 3600` to `0 ≤ 3600` and
the repair returns the string unchanged. -/
theorem c1_counterexample :
    splitOnChar ':' bigHourStamp =
      ["1152921504606846976".toList, "00".toList, "00".toList] ∧
    goAtoi "1152921504606846976".toList = some (2 ^ 60) ∧
    goAtoi "00".toList = some 0 ∧
    ¬((2 ^ 60 : Int) * 3600 + 0 * 60 + 0 ≤ 3600) ∧
    ¬((2 ^ 60 : Int) * 60 + 0 ≤ 3600) ∧
    correctTimestamp bigHourStamp 3600 = bigHourStamp ∧
    bigHourStamp ≠ formatSeconds 3600 := by
  refine ⟨by decide, by decide, by decide, by decide, by decide, by decide, by decide⟩

/-- C10: the timestamp repair function is idempotent, for every timestamp
string and every representable (`int64`) video length. -/
theorem correctTimestamp_idem (s : GoString) (L : Int)
    (hL1 : -(2 ^ 63) ≤ L) (hL2 : L < 2 ^ 63) :
    correctTimestamp (correctTimestamp s L) L = correctTimestamp s L := by
  cases hp : parseTriple s with
  | none =>
    rw [correctTimestamp_of_parseTriple_none L hp,
        correctTimestamp_of_parseTriple_none L hp]
  | some t =>
    obtain ⟨h, m, sec⟩ := t
    obtain ⟨⟨hh1, hh2⟩, ⟨hm1, hm2⟩, _⟩ := parseTriple_inRange hp
    rw [correctTimestamp_of_parseTriple_some L hp]
    split_ifs with h1 h2
    · rw [correctTimestamp_of_parseTriple_some L hp, if_pos h1]
    · have hp' := parseTriple_corrected h m hh1 hh2 hm1 hm2
      refine correctTimestamp_of_wrap_le L hp' ?_
      rw [show (0 : Int) * 3600 + h * 60 + m = h * 60 + m from by ring]
      exact h2
    · exact correctTimestamp_formatSeconds_self L hL1

/-- Witness for C10 at the `"45:30:00"` test vector with length 3600. -/
theorem correctTimestamp_idem_witness :
    correctTimestamp (correctTimestamp "45:30:00".toList 3600) 3600 =
      correctTimestamp "45:30:00".toList 3600 :=
  correctTimestamp_idem "45:30:00".toList 3600 (by decide) (by decide)

/-! ### Data model

The `model` package is not part of the sources; its record shapes are
modelled from the spec (section 3, DATA MODEL).  Only the fields the two
commands read or write are relevant to the claims. -/

/-- Modelled from the spec: a cast entry (character/actor name pair) of the
missing `model` package. -/
structure CastMember where
  CharacterName : GoString
  ActorName : GoString
deriving DecidableEq, Inhabited

/-- Modelled from the spec: a `(start, end)` time window of the missing
`model` package (`model.TimeSpan`). -/
structure TimeSpan where
  Start : GoString
  End : GoString
deriving DecidableEq, Inhabited

/-- Modelled from the spec: one timeline segment of the missing `model`
package (`model.Segment`): sequence number, `HH:MM:SS` start/end strings and
script text. -/
structure Segment where
  SequenceNumber : Int
  Start : GoString
  End : GoString
  Script : GoString
deriving DecidableEq, Inhabited

/-- Modelled from the spec: the read-only input summary of the missing
`model` package (`model.MediaSummary`). -/
structure MediaSummary where
  Title : GoString
  Category : GoString
  Summary : GoString
  MediaUrl : GoString
  Director : GoString
  ReleaseYear : Int
  Genre : GoString
  Rating : GoString
  Cast : List CastMember
  SegmentTimeStamps : List TimeSpan
deriving DecidableEq, Inhabited

/-- Modelled from the spec: the output aggregate of the missing `model`
package (`model.Media`); the freshly generated UUID identity is omitted (no
claim mentions it). -/
structure Media where
  Title : GoString
  Category : GoString
  Summary : GoString
  MediaUrl : GoString
  LengthInSeconds : Int
  Director : GoString
  ReleaseYear : Int
  Genre : GoString
  Rating : GoString
  Cast : List CastMember
  Segments : List Segment
deriving DecidableEq, Inhabited

/-! ### The dispatch engine (`SegmentExtractor` worker pool) -/

/-- Outcome of the external inference capability
(`cloud.GenerateMultiModalResponse`) for one job: the oracle input of the
worker model.  Error values are abstracted to numeric identifiers. -/
inductive InferOutcome where
  | ok (payload : GoString)
  | fail (errId : Nat)
deriving DecidableEq, Inhabited

/-- A dispatched segment job: `err` is the template-rendering error captured
on the job by `CreateJob` (`none` when rendering succeeded), `infer` what the
inference capability returns for this job's contents. -/
structure SegmentJob where
  workerId : Nat
  err : Option Nat
  infer : InferOutcome
deriving DecidableEq, Inhabited

/-- A value sent on the results channel (`SegmentResponse`): either a raw
text payload with nil error, or an error. -/
inductive SegmentResponse where
  | success (value : GoString)
  | failure (errId : Nat)
deriving DecidableEq, Inhabited

/-- `strings.Trim(s, " ")`: removes leading and trailing spaces. -/
def trimSpaces (s : GoString) : GoString :=
  ((s.dropWhile (fun c => c = ' ')).reverse.dropWhile (fun c => c = ' ')).reverse

/-- The literal two-character empty-object marker compared against by the
worker. -/
def emptyObjectMarker : GoString := [Char.ofNat 123, Char.ofNat 125]

/-- The worker's success filter: `len(strings.Trim(out, " ")) > 0 && out != "{}"`
(the marker written with character codes). -/
def keepPayload (out : GoString) : Bool :=
  decide (0 < (trimSpaces out).length) && decide (out ≠ emptyObjectMarker)

/-- One worker's loop (`segmentWorker`): processes the jobs it pulls from the
channel in order.  Faithful to the source: after an inference failure the
worker emits the failure response and executes `return`, exiting the loop and
leaving the rest of its jobs unprocessed; an empty or `"{}"` success emits
nothing; a template-error job emits a failure and continues. -/
def segmentWorker : List SegmentJob → List SegmentResponse
  | [] => []
  | j :: rest =>
    match j.err with
    | none =>
      match j.infer with
      | .fail e => [SegmentResponse.failure e]
      | .ok out =>
        if keepPayload out then SegmentResponse.success out :: segmentWorker rest
        else segmentWorker rest
    | some e => SegmentResponse.failure e :: segmentWorker rest

/-- Job creation in `SegmentExtractor.Execute`: one job per entry of
`summary.SegmentTimeStamps`, in order; `templateErr i` is the rendering error
captured by `CreateJob` for window `i` and `inferOracle i` the inference
outcome for window `i`'s prompt. -/
def createJobs (summary : MediaSummary) (templateErr : Nat → Option Nat)
    (inferOracle : Nat → InferOutcome) : List SegmentJob :=
  (List.range summary.SegmentTimeStamps.length).map fun i =>
    { workerId := i, err := templateErr i, infer := inferOracle i }

/-- A scheduling of the jobs channel onto `W` workers: each job is pulled by
exactly one worker (the shares jointly permute the job list) and each worker
sees its share in channel order.  The results channel then holds the
concatenation of the workers' emissions (arrival order across workers is
irrelevant to the counting claims). -/
def IsSchedule (jobs : List SegmentJob) (W : Nat) (shares : List (List SegmentJob)) : Prop :=
  shares.length = W ∧ shares.flatten.Perm jobs

/-- `true` for an error-free job whose successful payload passes the worker's
keep filter, i.e. a job that contributes a success response. -/
def okKept (j : SegmentJob) : Bool :=
  match j.err, j.infer with
  | none, .ok p => keepPayload p
  | _, _ => false

theorem segmentWorker_length_le (l : List SegmentJob) :
    (segmentWorker l).length ≤ l.length := by
  induction l with
  | nil => simp [segmentWorker]
  | cons j rest ih =>
    simp only [segmentWorker]
    cases j.err with
    | none =>
      cases j.infer with
      | fail e => simp
      | ok out =>
        by_cases h : keepPayload out
        · simp only [if_pos h, List.length_cons]
          exact Nat.succ_le_succ ih
        · simp only [if_neg h, List.length_cons]
          exact Nat.le_succ_of_le ih
    | some e =>
      simp only [List.length_cons]
      exact Nat.succ_le_succ ih

/-- On a run in which every job carries no template error and every inference
call succeeds, a worker emits exactly the kept successes of its share, in
order. -/
theorem segmentWorker_all_ok (l : List SegmentJob)
    (hok : ∀ j ∈ l, j.err = none ∧ ∃ p, j.infer = InferOutcome.ok p) :
    segmentWorker l = l.filterMap fun j =>
      match j.infer with
      | .ok p => if keepPayload p then some (SegmentResponse.success p) else none
      | .fail _ => none := by
  induction l with
  | nil => rfl
  | cons j rest ih =>
    obtain ⟨herr, p, hp⟩ := hok j (List.mem_cons_self _ _)
    have hrest := fun j hj => hok j (List.mem_cons_of_mem _ hj)
    simp only [segmentWorker, herr, hp, List.filterMap_cons]
    split
    · simp_all
    · simp_all

theorem segmentWorker_all_ok_length (l : List SegmentJob)
    (hok : ∀ j ∈ l, j.err = none ∧ ∃ p, j.infer = InferOutcome.ok p) :
    (segmentWorker l).length = l.countP okKept := by
  rw [segmentWorker_all_ok l hok]
  induction l with
  | nil => rfl
  | cons j rest ih =>
    obtain ⟨herr, p, hp⟩ := hok j (List.mem_cons_self _ _)
    have ih' := ih fun j hj => hok j (List.mem_cons_of_mem _ hj)
    simp only [List.filterMap_cons, List.countP_cons, okKept, herr, hp]
    split <;> simp_all

/-- C3 (amended): for every schedule of the `N` jobs onto `W ≥ 1` workers,
the dispatch engine produces at most `N` results; exactly the number of kept
jobs (i.e. `N` minus the silently-dropped empty successes) when every job is
error-free and every inference call succeeds; and `0` results when `N = 0`. -/
theorem dispatch_result_count (summary : MediaSummary) (templateErr : Nat → Option Nat)
    (inferOracle : Nat → InferOutcome) (W : Nat) (shares : List (List SegmentJob))
    (hW : 1 ≤ W)
    (hsched : IsSchedule (createJobs summary templateErr inferOracle) W shares) :
    ((shares.map segmentWorker).flatten.length ≤ summary.SegmentTimeStamps.length) ∧
    ((∀ j ∈ createJobs summary templateErr inferOracle,
        j.err = none ∧ ∃ p, j.infer = InferOutcome.ok p) →
      (shares.map segmentWorker).flatten.length =
        (createJobs summary templateErr inferOracle).countP okKept) ∧
    (summary.SegmentTimeStamps.length = 0 →
      (shares.map segmentWorker).flatten.length = 0) := by
  obtain ⟨hlen, hperm⟩ := hsched
  have hN : (createJobs summary templateErr inferOracle).length =
      summary.SegmentTimeStamps.length := by
    simp [createJobs]
  have hflatlen : shares.flatten.length = summary.SegmentTimeStamps.length := by
    rw [hperm.length_eq, hN]
  have hle : (shares.map segmentWorker).flatten.length ≤
      summary.SegmentTimeStamps.length := by
    rw [List.length_flatten, List.map_map]
    calc (shares.map (List.length ∘ segmentWorker)).sum
        ≤ (shares.map List.length).sum :=
          List.sum_le_sum (fun s _ => segmentWorker_length_le s)
      _ = shares.flatten.length := (List.length_flatten shares).symm
      _ = _ := hflatlen
  refine ⟨hle, ?_, fun h0 => by omega⟩
  intro hok
  have hmap : shares.map (List.length ∘ segmentWorker) = shares.map (List.countP okKept) := by
    apply List.map_congr_left
    intro s hs
    refine segmentWorker_all_ok_length s ?_
    intro j hj
    exact hok j (hperm.mem_iff.mp (List.mem_flatten.mpr ⟨s, hs, hj⟩))
  rw [List.length_flatten, List.map_map, hmap, ← List.countP_flatten, hperm.countP_eq]

/-- Witness for the amended C3 at a concrete schedule: two windows on two
workers, one successful non-empty payload and one empty payload. -/
theorem dispatch_result_count_witness :
    (([[⟨0, none, InferOutcome.ok ['a']⟩], [⟨1, none, InferOutcome.ok []⟩]].map
        segmentWorker).flatten.length ≤
      ({ (default : MediaSummary) with
          SegmentTimeStamps := [default, default] }).SegmentTimeStamps.length) ∧
    ((∀ j ∈ createJobs
          { (default : MediaSummary) with SegmentTimeStamps := [default, default] }
          (fun _ => none)
          (fun i => if i = 0 then InferOutcome.ok ['a'] else InferOutcome.ok []),
        j.err = none ∧ ∃ p, j.infer = InferOutcome.ok p) →
      ([[⟨0, none, InferOutcome.ok ['a']⟩], [⟨1, none, InferOutcome.ok []⟩]].map
          segmentWorker).flatten.length =
        (createJobs
          { (default : MediaSummary) with SegmentTimeStamps := [default, default] }
          (fun _ => none)
          (fun i => if i = 0 then InferOutcome.ok ['a'] else InferOutcome.ok [])).countP
          okKept) ∧
    (({ (default : MediaSummary) with
          SegmentTimeStamps := [default, default] }).SegmentTimeStamps.length = 0 →
      ([[⟨0, none, InferOutcome.ok ['a']⟩], [⟨1, none, InferOutcome.ok []⟩]].map
          segmentWorker).flatten.length = 0) :=
  dispatch_result_count
    { (default : MediaSummary) with SegmentTimeStamps := [default, default] }
    (fun _ => none)
    (fun i => if i = 0 then InferOutcome.ok ['a'] else InferOutcome.ok [])
    2
    [[⟨0, none, InferOutcome.ok ['a']⟩], [⟨1, none, InferOutcome.ok []⟩]]
    (by norm_num)
    ⟨rfl, by decide⟩

/-- C3 counterexample: a summary with exactly one time window whose inference
call succeeds with the empty payload, on one worker, yields zero results —
not one — so the dispatch engine does not always produce exactly `N`
results. -/
theorem c3_counterexample :
    IsSchedule
      (createJobs { (default : MediaSummary) with SegmentTimeStamps := [default] }
        (fun _ => none) (fun _ => InferOutcome.ok []))
      1 [[⟨0, none, InferOutcome.ok []⟩]] ∧
    ({ (default : MediaSummary) with
        SegmentTimeStamps := [default] }).SegmentTimeStamps.length = 1 ∧
    ([[⟨0, none, InferOutcome.ok []⟩]].map segmentWorker).flatten.length = 0 :=
  ⟨⟨rfl, by decide⟩, rfl, rfl⟩

/-- C4: evaluation of the worker loop at the failing input.  With one worker
and two jobs, the first of which suffers an inference failure, the worker
emits the failure response and then `return`s out of its loop: the second job
is never processed and contributes no outcome, contradicting the error policy
that one job's failure does not affect any other job. -/
theorem segmentWorker_abandons_after_failure :
    segmentWorker
      [⟨0, none, InferOutcome.fail 7⟩, ⟨1, none, InferOutcome.ok ['x']⟩] =
      [SegmentResponse.failure 7] := rfl

/-- C8: on a run where every job is error-free and every inference call
succeeds, the worker emits exactly the successes whose payload is non-empty
after space-trimming and differs from the literal `"{}"` marker, in order;
dropped payloads produce nothing at all — in particular no failure response
ever appears. -/
theorem empty_success_dropped (jobs : List SegmentJob)
    (hok : ∀ j ∈ jobs, j.err = none ∧ ∃ p, j.infer = InferOutcome.ok p) :
    segmentWorker jobs = (jobs.filterMap fun j =>
      match j.infer with
      | .ok p => if keepPayload p then some (SegmentResponse.success p) else none
      | .fail _ => none) ∧
    (∀ r ∈ segmentWorker jobs,
      ∃ p, r = SegmentResponse.success p ∧ keepPayload p = true) := by
  have heq := segmentWorker_all_ok jobs hok
  refine ⟨heq, ?_⟩
  intro r hr
  rw [heq] at hr
  obtain ⟨j, hj, hfj⟩ := List.mem_filterMap.mp hr
  obtain ⟨herr, p, hp⟩ := hok j hj
  rw [hp] at hfj
  simp only at hfj
  split at hfj
  · exact ⟨p, by simp_all⟩
  · cases hfj

/-- Witness for C8: a blank payload and the `"{}"` marker are dropped, a real
payload is kept. -/
theorem empty_success_dropped_witness :
    (segmentWorker
        [⟨0, none, InferOutcome.ok [' ', ' ']⟩,
         ⟨1, none, InferOutcome.ok emptyObjectMarker⟩,
         ⟨2, none, InferOutcome.ok ['b']⟩] =
      ([⟨0, none, InferOutcome.ok [' ', ' ']⟩,
        ⟨1, none, InferOutcome.ok emptyObjectMarker⟩,
        ⟨2, none, InferOutcome.ok ['b']⟩] : List SegmentJob).filterMap fun j =>
        match j.infer with
        | .ok p => if keepPayload p then some (SegmentResponse.success p) else none
        | .fail _ => none) ∧
    (∀ r ∈ segmentWorker
        [⟨0, none, InferOutcome.ok [' ', ' ']⟩,
         ⟨1, none, InferOutcome.ok emptyObjectMarker⟩,
         ⟨2, none, InferOutcome.ok ['b']⟩],
      ∃ p, r = SegmentResponse.success p ∧ keepPayload p = true) :=
  empty_success_dropped
    [⟨0, none, InferOutcome.ok [' ', ' ']⟩,
     ⟨1, none, InferOutcome.ok emptyObjectMarker⟩,
     ⟨2, none, InferOutcome.ok ['b']⟩]
    (by
      intro j hj
      fin_cases hj
      · exact ⟨rfl, [' ', ' '], rfl⟩
      · exact ⟨rfl, emptyObjectMarker, rfl⟩
      · exact ⟨rfl, ['b'], rfl⟩)

/-! ### The timeline assembler (`MediaAssembly.Execute`) -/

/-- Go `getnum(value, false)` for layout token `"15"`: one or two decimal
digits. -/
def getnum2 : GoString → Option (Nat × GoString)
  | [] => none
  | c :: rest =>
    if isDigitChar c then
      match rest with
      | c2 :: rest2 =>
        if isDigitChar c2 then
          some ((c.toNat - '0'.toNat) * 10 + (c2.toNat - '0'.toNat), rest2)
        else some (c.toNat - '0'.toNat, rest)
      | [] => some (c.toNat - '0'.toNat, [])
    else none

/-- Go `getnum(value, true)` for zero-padded tokens `"04"`, `"05"`: exactly
two decimal digits. -/
def getnumFixed2 : GoString → Option (Nat × GoString)
  | c1 :: c2 :: rest =>
    if isDigitChar c1 ∧ isDigitChar c2 then
      some ((c1.toNat - '0'.toNat) * 10 + (c2.toNat - '0'.toNat), rest)
    else none
  | _ => none

/-- `parseNanoseconds`: value of the digit run after the decimal point — the
first nine digits, scaled to nanoseconds (further digits are consumed but
ignored). -/
def fracNanos (ds : List Char) : Nat :=
  let nine := ds.take 9
  (nine.foldl (fun acc c => acc * 10 + (c.toNat - '0'.toNat)) 0) * 10 ^ (9 - nine.length)

/-- Go `time.Parse("15:04:05", s)`, reduced to the nanosecond offset of the
parsed clock reading within its day: 1–2 digit hour in `[0,23]`, `':'`,
2-digit minute in `[0,59]`, `':'`, 2-digit second in `[0,59]`, then either
nothing or a `'.'`/`','` followed by one or more digits (a fractional
second, accepted by `Parse` even though the layout carries none). -/
def goTimeParseClock (s : GoString) : Option Nat :=
  match getnum2 s with
  | none => none
  | some (hour, r1) =>
    if 24 ≤ hour then none else
    match r1 with
    | ':' :: r2 =>
      match getnumFixed2 r2 with
      | none => none
      | some (minute, r3) =>
        if 60 ≤ minute then none else
        match r3 with
        | ':' :: r4 =>
          match getnumFixed2 r4 with
          | none => none
          | some (sec, r5) =>
            if 60 ≤ sec then none else
            match r5 with
            | [] => some ((hour * 3600 + minute * 60 + sec) * 1000000000)
            | p :: ds =>
              if (p = '.' ∨ p = ',') ∧ ds ≠ [] ∧ ds.all isDigitChar then
                some ((hour * 3600 + minute * 60 + sec) * 1000000000 + fracNanos ds)
              else none
        | _ => none
    | _ => none

/-- 366 days in nanoseconds: successfully parsed values sit on January 1 of
year 0 (a leap year), while a failed `time.Parse` leaves the zero `time.Time`
(January 1 of year 1), so unparsable start times compare strictly after every
parsable one. -/
def unparsableKey : Nat := 366 * 86400 * 1000000000

/-- The sort key of a segment's start string under the assembler's
comparator. -/
def startKey (s : GoString) : Nat :=
  match goTimeParseClock s with
  | some v => v
  | none => unparsableKey

/-- `t.Before(tt)` on the parsed start times: the strict comparator handed to
`sort.Slice`. -/
def segLess (a b : Segment) : Bool := decide (startKey a.Start < startKey b.Start)

/-- The non-strict companion of `segLess`: what "sorted" means for the
assembler's comparator. -/
def segLE (a b : Segment) : Prop := startKey a.Start ≤ startKey b.Start

instance : DecidableRel segLE := fun _ _ => Nat.decLe _ _

/-- The re-sequencing loop `for i, segment := range segments {
segment.SequenceNumber = i }`, starting at index `k`. -/
def resequence (k : Nat) : List Segment → List Segment
  | [] => []
  | s :: rest => { s with SequenceNumber := (k : Int) } :: resequence (k + 1) rest

/-- `fmt.Sprintf("[ %s ]", strings.Join(jsonSegments, ","))`. -/
def combinePayloads (jsonSegments : List GoString) : GoString :=
  '[' :: ' ' :: (joinWith [','] jsonSegments ++ [' ', ']'])

/-- The observable effects of one `MediaAssembly.Execute` call: telemetry
counter increments, errors accumulated on the context, and the published
output value. -/
structure AssemblyResult where
  errorCounterAdds : Nat
  errorsAdded : Nat
  successCounterAdds : Nat
  output : Option Media
deriving DecidableEq

/-- `MediaAssembly.Execute`.  `parse` abstracts `json.Unmarshal` of the
combined document into a segment list (`none` = parse error).  `sortFn`
abstracts `sort.Slice` with the `segLess` comparator; the claims constrain it
through `IsSortImpl` (Go's documented postcondition) or instantiate it with a
concrete sorting function. -/
def mediaAssemblyExecute (parse : GoString → Option (List Segment))
    (sortFn : List Segment → List Segment) (summary : MediaSummary)
    (jsonSegments : List GoString) (mediaLengthInSeconds : Int) : AssemblyResult :=
  let segmentValues := combinePayloads jsonSegments
  match parse segmentValues with
  | none =>
    { errorCounterAdds := 1, errorsAdded := 1, successCounterAdds := 0, output := none }
  | some parsed =>
    let segments :=
      if parsed.length = 0 then
        [{ SequenceNumber := 0, Start := "00:00:00".toList,
           End := formatSeconds mediaLengthInSeconds, Script := summary.Summary }]
      else parsed
    let corrected := segments.map fun seg =>
      { seg with Start := correctTimestamp seg.Start mediaLengthInSeconds,
                 End := correctTimestamp seg.End mediaLengthInSeconds }
    let sorted := sortFn corrected
    let sequenced := resequence 0 sorted
    { errorCounterAdds := 0, errorsAdded := 0, successCounterAdds := 1,
      output := some
        { Title := summary.Title, Category := summary.Category,
          Summary := summary.Summary, MediaUrl := summary.MediaUrl,
          LengthInSeconds := mediaLengthInSeconds, Director := summary.Director,
          ReleaseYear := summary.ReleaseYear, Genre := summary.Genre,
          Rating := summary.Rating, Cast := summary.Cast, Segments := sequenced } }

/-- Go's documented contract for `sort.Slice` with the `segLess` comparator:
the result is a permutation of the input, sorted by the parsed start-time
keys. -/
def IsSortImpl (sortFn : List Segment → List Segment) : Prop :=
  ∀ l : List Segment, (sortFn l).Perm l ∧ List.Chain' segLE (sortFn l)

/-- A concrete sorting function satisfying the contract, used to instantiate
the witnesses. -/
def sortBySegLE (l : List Segment) : List Segment := List.insertionSort segLE l

theorem isSortImpl_sortBySegLE : IsSortImpl sortBySegLE := by
  intro l
  refine ⟨List.perm_insertionSort segLE l, ?_⟩
  have hs : List.Sorted segLE (List.insertionSort segLE l) := by
    haveI : IsTotal Segment segLE := ⟨fun a b => Nat.le_total _ _⟩
    haveI : IsTrans Segment segLE := ⟨fun _ _ _ hab hbc => Nat.le_trans hab hbc⟩
    exact List.sorted_insertionSort segLE l
  exact List.Pairwise.chain' hs

theorem length_resequence (k : Nat) (l : List Segment) :
    (resequence k l).length = l.length := by
  induction l generalizing k with
  | nil => rfl
  | cons s rest ih => simp [resequence, ih]

theorem resequence_get (k : Nat) (l : List Segment) (i : Nat)
    (h : i < (resequence k l).length) :
    ((resequence k l).get ⟨i, h⟩).SequenceNumber = ((k + i : Nat) : Int) := by
  induction l generalizing k i with
  | nil => simp [resequence] at h
  | cons s rest ih =>
    cases i with
    | zero => simp [resequence]
    | succ i =>
      have h' : i < (resequence (k + 1) rest).length := by
        simpa [resequence] using h
      have hrec := ih (k + 1) i h'
      have hidx : (k + 1) + i = k + (i + 1) := by omega
      simpa [resequence, hidx] using hrec

theorem mem_resequence {a : Segment} (k : Nat) (l : List Segment)
    (h : a ∈ resequence k l) :
    ∃ b ∈ l, a.Start = b.Start ∧ a.End = b.End ∧ a.Script = b.Script := by
  induction l generalizing k with
  | nil => simp [resequence] at h
  | cons s rest ih =>
    rcases List.mem_cons.mp h with h | h
    · exact ⟨s, List.mem_cons_self _ _, by subst h; exact ⟨rfl, rfl, rfl⟩⟩
    · obtain ⟨b, hb, hs⟩ := ih (k + 1) h
      exact ⟨b, List.mem_cons_of_mem _ hb, hs⟩

theorem resequence_head (k : Nat) (l : List Segment) :
    (resequence k l).head? = l.head?.map (fun s => { s with SequenceNumber := (k : Int) }) := by
  cases l <;> rfl

theorem chain'_resequence (k : Nat) (l : List Segment) (h : List.Chain' segLE l) :
    List.Chain' segLE (resequence k l) := by
  induction l generalizing k with
  | nil => simp [resequence]
  | cons s rest ih =>
    rw [List.chain'_cons'] at h
    obtain ⟨hh, h2⟩ := h
    rw [resequence, List.chain'_cons']
    refine ⟨?_, ih (k + 1) h2⟩
    intro x hx
    rw [resequence_head] at hx
    obtain ⟨y, hy, rfl⟩ := Option.mem_map.mp hx
    exact hh y hy

/-- C6: when the combined fragment document fails to parse, the assembly
stage reports exactly one error to error accumulation, increments the error
counter once, and returns without publishing any `Media` value. -/
theorem batch_parse_error_aborts (parse : GoString → Option (List Segment))
    (sortFn : List Segment → List Segment) (summary : MediaSummary)
    (js : List GoString) (L : Int)
    (hfail : parse (combinePayloads js) = none) :
    mediaAssemblyExecute parse sortFn summary js L =
      { errorCounterAdds := 1, errorsAdded := 1, successCounterAdds := 0,
        output := none } := by
  simp only [mediaAssemblyExecute, hfail]

/-- Witness for C6: a parser that rejects everything. -/
theorem batch_parse_error_aborts_witness :
    mediaAssemblyExecute (fun _ => none) sortBySegLE (default : MediaSummary) [] 0 =
      { errorCounterAdds := 1, errorsAdded := 1, successCounterAdds := 0,
        output := none } :=
  batch_parse_error_aborts (fun _ => none) sortBySegLE (default : MediaSummary) [] 0 rfl

/-- C5 (amended: nonnegative media length): when the parsed segment list is
empty, assembly publishes a `Media` whose timeline is exactly the fallback
segment — sequence 0, start `"00:00:00"`, end the formatted length, script
the summary text; and, in general, every published timeline is non-empty. -/
theorem fallback_segment (parse : GoString → Option (List Segment))
    (sortFn : List Segment → List Segment) (summary : MediaSummary)
    (js : List GoString) (L : Int) (hsort : IsSortImpl sortFn) (hL : 0 ≤ L) :
    (parse (combinePayloads js) = some [] →
      mediaAssemblyExecute parse sortFn summary js L =
        { errorCounterAdds := 0, errorsAdded := 0, successCounterAdds := 1,
          output := some
            { Title := summary.Title, Category := summary.Category,
              Summary := summary.Summary, MediaUrl := summary.MediaUrl,
              LengthInSeconds := L, Director := summary.Director,
              ReleaseYear := summary.ReleaseYear, Genre := summary.Genre,
              Rating := summary.Rating, Cast := summary.Cast,
              Segments := [{ SequenceNumber := 0, Start := "00:00:00".toList,
                             End := formatSeconds L,
                             Script := summary.Summary }] } }) ∧
    (∀ media,
      (mediaAssemblyExecute parse sortFn summary js L).output = some media →
        media.Segments ≠ []) := by
  constructor
  · intro hempty
    have hstart : correctTimestamp "00:00:00".toList L = "00:00:00".toList := by
      refine correctTimestamp_of_wrap_le L
        (show parseTriple "00:00:00".toList = some (0, 0, 0) from by decide) ?_
      rw [show wrap64 ((0 : Int) * 3600 + 0 * 60 + 0) = 0 from by decide]
      exact hL
    have hend : correctTimestamp (formatSeconds L) L = formatSeconds L :=
      correctTimestamp_formatSeconds_self L (by omega)
    have hone := List.perm_singleton.mp
      (hsort [⟨0, "00:00:00".toList, formatSeconds L, summary.Summary⟩]).1
    simp only [mediaAssemblyExecute, hempty, List.length_nil, if_pos,
      List.map_cons, List.map_nil, hstart, hend]
    rw [hone]
    simp [resequence]
  · intro media hout
    cases hp : parse (combinePayloads js) with
    | none => simp [mediaAssemblyExecute, hp] at hout
    | some parsed =>
      simp only [mediaAssemblyExecute, hp, Option.some.injEq] at hout
      subst hout
      simp only []
      apply List.ne_nil_of_length_pos
      rw [length_resequence, ((hsort _).1).length_eq, List.length_map]
      split
      · simp
      · rename_i hne
        omega

/-- Witness for C5 at length 60 with an always-empty parser: the published
timeline is exactly the fallback segment, and the timeline is non-empty. -/
theorem fallback_segment_witness :
    ((fun _ => some ([] : List Segment)) (combinePayloads []) = some [] →
      mediaAssemblyExecute (fun _ => some []) sortBySegLE (default : MediaSummary) [] 60 =
        { errorCounterAdds := 0, errorsAdded := 0, successCounterAdds := 1,
          output := some
            { Title := (default : MediaSummary).Title,
              Category := (default : MediaSummary).Category,
              Summary := (default : MediaSummary).Summary,
              MediaUrl := (default : MediaSummary).MediaUrl,
              LengthInSeconds := 60,
              Director := (default : MediaSummary).Director,
              ReleaseYear := (default : MediaSummary).ReleaseYear,
              Genre := (default : MediaSummary).Genre,
              Rating := (default : MediaSummary).Rating,
              Cast := (default : MediaSummary).Cast,
              Segments := [{ SequenceNumber := 0, Start := "00:00:00".toList,
                             End := formatSeconds 60,
                             Script := (default : MediaSummary).Summary }] } }) ∧
    (∀ media,
      (mediaAssemblyExecute (fun _ => some []) sortBySegLE
          (default : MediaSummary) [] 60).output = some media →
        media.Segments ≠ []) :=
  fallback_segment (fun _ => some []) sortBySegLE (default : MediaSummary) [] 60
    isSortImpl_sortBySegLE (by norm_num)

/-- C5 counterexample: at the (negative) media length `-1` the fallback
segment's start is itself "repaired" to the clamped `"00:00:-1"`, so the
published segment's start is not `"00:00:00"` as the claim requires for every
media length. -/
theorem c5_counterexample :
    (mediaAssemblyExecute (fun _ => some []) sortBySegLE
        (default : MediaSummary) [] (-1)).output =
      some
        { Title := [], Category := [], Summary := [], MediaUrl := [],
          LengthInSeconds := -1, Director := [], ReleaseYear := 0, Genre := [],
          Rating := [], Cast := [],
          Segments := [{ SequenceNumber := 0,
                         Start := ['0', '0', ':', '0', '0', ':', '-', '1'],
                         End := ['0', '0', ':', '0', '0', ':', '-', '1'],
                         Script := [] }] } ∧
    (['0', '0', ':', '0', '0', ':', '-', '1'] : GoString) ≠ "00:00:00".toList := by
  constructor
  · decide
  · decide

/-- C2: every successfully assembled timeline is sorted ascending by parsed
start time (adjacent keys non-decreasing under the `segLess`/`segLE`
comparator) and its sequence numbers are exactly the 0-based positions. -/
theorem ordering_invariant (parse : GoString → Option (List Segment))
    (sortFn : List Segment → List Segment) (summary : MediaSummary)
    (js : List GoString) (L : Int) (hsort : IsSortImpl sortFn) :
    ∀ media, (mediaAssemblyExecute parse sortFn summary js L).output = some media →
      List.Chain' segLE media.Segments ∧
      ∀ i (h : i < media.Segments.length),
        (media.Segments.get ⟨i, h⟩).SequenceNumber = (i : Int) := by
  intro media hout
  cases hp : parse (combinePayloads js) with
  | none => simp [mediaAssemblyExecute, hp] at hout
  | some parsed =>
    simp only [mediaAssemblyExecute, hp, Option.some.injEq] at hout
    subst hout
    refine ⟨chain'_resequence 0 _ ((hsort _).2), ?_⟩
    intro i h
    have := resequence_get 0 _ i h
    simpa using this

/-- Witness for C2: two out-of-order fragments are sorted and re-sequenced. -/
theorem ordering_invariant_witness :
    List.Chain' segLE
      [⟨0, "00:00:01".toList, "00:00:02".toList, ['a']⟩,
       ⟨1, "00:00:02".toList, "00:00:03".toList, ['b']⟩] ∧
    ∀ i (h : i <
        ([⟨0, "00:00:01".toList, "00:00:02".toList, ['a']⟩,
          ⟨1, "00:00:02".toList, "00:00:03".toList, ['b']⟩] : List Segment).length),
      (([⟨0, "00:00:01".toList, "00:00:02".toList, ['a']⟩,
         ⟨1, "00:00:02".toList, "00:00:03".toList, ['b']⟩] : List Segment).get
          ⟨i, h⟩).SequenceNumber = (i : Int) := by
  have h := ordering_invariant
    (fun _ => some [⟨9, "00:00:02".toList, "00:00:03".toList, ['b']⟩,
                    ⟨5, "00:00:01".toList, "00:00:02".toList, ['a']⟩])
    sortBySegLE (default : MediaSummary) [] 10 isSortImpl_sortBySegLE
    { Title := [], Category := [], Summary := [], MediaUrl := [],
      LengthInSeconds := 10, Director := [], ReleaseYear := 0, Genre := [],
      Rating := [], Cast := [],
      Segments := [⟨0, "00:00:01".toList, "00:00:02".toList, ['a']⟩,
                   ⟨1, "00:00:02".toList, "00:00:03".toList, ['b']⟩] }
    (by decide)
  exact h

/-- A timestamp string that splits into three integer components, all of them
nonnegative, whose weighted second count stays below `2^63` (no 64-bit
overflow). -/
def NonnegTriple (s : GoString) : Prop :=
  ∃ h m sec, parseTriple s = some (h, m, sec) ∧ 0 ≤ h ∧ 0 ≤ m ∧ 0 ≤ sec ∧
    h * 3600 + m * 60 + sec < 2 ^ 63

/-- C7 (amended): for a representable nonnegative media length, when every
parsed input timestamp has three nonnegative integer components whose second
count does not overflow `int64`, every final start/end of a successfully
assembled timeline denotes a value inside `[0, L]`. -/
theorem timeline_bounds (parse : GoString → Option (List Segment))
    (sortFn : List Segment → List Segment) (summary : MediaSummary)
    (js : List GoString) (L : Int) (hsort : IsSortImpl sortFn) :
    ∀ media, (mediaAssemblyExecute parse sortFn summary js L).output = some media →
      0 ≤ L → L < 2 ^ 63 →
      ∀ parsed, parse (combinePayloads js) = some parsed →
        (∀ s ∈ parsed, NonnegTriple s.Start ∧ NonnegTriple s.End) →
        ∀ seg ∈ media.Segments,
          (∃ v, timestampValue seg.Start = some v ∧ 0 ≤ v ∧ v ≤ L) ∧
          (∃ v, timestampValue seg.End = some v ∧ 0 ≤ v ∧ v ≤ L) := by
  intro media hout
  cases hp : parse (combinePayloads js) with
  | none => simp [mediaAssemblyExecute, hp] at hout
  | some parsed0 =>
    simp only [mediaAssemblyExecute, hp, Option.some.injEq] at hout
    subst hout
    have hdecomp : ∀ seg ∈ resequence 0 (sortFn
        ((if parsed0.length = 0 then
            [{ SequenceNumber := 0, Start := "00:00:00".toList,
               End := formatSeconds L, Script := summary.Summary }]
          else parsed0).map fun s =>
            { s with Start := correctTimestamp s.Start L,
                     End := correctTimestamp s.End L })),
        ∃ orig ∈ (if parsed0.length = 0 then
            [({ SequenceNumber := 0, Start := "00:00:00".toList,
                End := formatSeconds L, Script := summary.Summary } : Segment)]
          else parsed0),
          seg.Start = correctTimestamp orig.Start L ∧
          seg.End = correctTimestamp orig.End L := by
      intro seg hseg
      obtain ⟨b, hb, hbs, hbe, _⟩ := mem_resequence 0 _ hseg
      have hb' := ((hsort _).1).mem_iff.mp hb
      obtain ⟨orig, horig, rfl⟩ := List.mem_map.mp hb'
      exact ⟨orig, horig, hbs, hbe⟩
    intro hL hL2 parsed hparsed hnn seg hseg
    have hpe := Option.some.inj hparsed
    subst hpe
    obtain ⟨orig, horig, hs, he⟩ := hdecomp seg hseg
    by_cases hlen : parsed0.length = 0
    · rw [if_pos hlen] at horig
      simp only [List.mem_singleton] at horig
      subst horig
      constructor
      · refine ⟨0, ?_, le_refl 0, hL⟩
        have hz : correctTimestamp "00:00:00".toList L = "00:00:00".toList := by
          refine correctTimestamp_of_wrap_le L
            (show parseTriple "00:00:00".toList = some (0, 0, 0) from by decide) ?_
          rw [show wrap64 ((0 : Int) * 3600 + 0 * 60 + 0) = 0 from by decide]
          exact hL
        rw [hs, hz]
        exact show timestampValue "00:00:00".toList = some 0 by decide
      · refine ⟨L, ?_, hL, le_refl L⟩
        rw [he, correctTimestamp_formatSeconds_self L (by omega)]
        exact timestampValue_formatSeconds (by omega) hL2
    · rw [if_neg hlen] at horig
      obtain ⟨hnns, hnne⟩ := hnn orig horig
      obtain ⟨h1, m1, s1, hp1, hh1, hm1, hs1, hb1⟩ := hnns
      obtain ⟨h2, m2, s2, hp2, hh2, hm2, hs2, hb2⟩ := hnne
      obtain ⟨v, hv, h0v, hvL⟩ := correctTimestamp_nonneg_bounds hp1 hh1 hm1 hs1 hb1 hL hL2
      obtain ⟨w, hw, h0w, hwL⟩ := correctTimestamp_nonneg_bounds hp2 hh2 hm2 hs2 hb2 hL hL2
      exact ⟨⟨v, by rw [hs]; exact hv, h0v, hvL⟩, ⟨w, by rw [he]; exact hw, h0w, hwL⟩⟩


/-- The media value published by the fallback scenario at length 60 (used
only to state the C7 witness). -/
def fallbackMedia60 : Media :=
  { Title := [], Category := [], Summary := [], MediaUrl := [],
    LengthInSeconds := 60, Director := [], ReleaseYear := 0, Genre := [],
    Rating := [], Cast := [],
    Segments := [⟨0, "00:00:00".toList, "00:01:00".toList, []⟩] }

/-- Witness for C7 at the fallback scenario with length 60: the single
published segment's start and end denote 0 and 60, both inside `[0, 60]`. -/
theorem timeline_bounds_witness :
    (∃ v, timestampValue "00:00:00".toList = some v ∧ 0 ≤ v ∧ v ≤ 60) ∧
    (∃ v, timestampValue "00:01:00".toList = some v ∧ 0 ≤ v ∧ v ≤ 60) :=
  timeline_bounds (fun _ => some []) sortBySegLE (default : MediaSummary) [] 60
    isSortImpl_sortBySegLE fallbackMedia60 (by decide) (by decide) (by decide) []
    rfl (by simp) ⟨0, "00:00:00".toList, "00:01:00".toList, []⟩ (by decide)

/-- The media value published in the C7 counterexample run (used only to
state that counterexample). -/
def negativeEndMedia : Media :=
  { Title := [], Category := [], Summary := [], MediaUrl := [],
    LengthInSeconds := 10, Director := [], ReleaseYear := 0, Genre := [],
    Rating := [], Cast := [],
    Segments := [⟨0, "00:00:05".toList, "00:00:-5".toList, ['x']⟩] }

/-- C7 counterexample: a parsed fragment with end `"00:00:-5"` at length 10
survives repair unchanged (its value −5 is ≤ 10), so the final timeline
contains a timestamp denoting −5 seconds, which is not within `[0, 10]`. -/
theorem c7_counterexample :
    (mediaAssemblyExecute
        (fun _ => some [⟨5, "00:00:05".toList, "00:00:-5".toList, ['x']⟩])
        sortBySegLE (default : MediaSummary) [] 10).output = some negativeEndMedia ∧
    timestampValue "00:00:-5".toList = some (-5) ∧ (-5 : Int) < 0 := by
  refine ⟨by decide, by decide, by decide⟩

/-! ### Go `sort.Slice` (pdqsort)

The assembler calls `sort.Slice`, whose documentation warns that the sort is
not guaranteed to be stable.  To settle the stability claim the algorithm is
embedded faithfully from Go's `sort` package (`zsortfunc.go`,
`pdqsort_func` and its helpers).  Indices are `Nat`; out-of-range reads
return `default` and out-of-range writes are no-ops, which the algorithm
never performs on the index ranges it is invoked with. -/

/-- Read `data[i]` (in range whenever the sort touches it). -/
def aget [Inhabited α] (xs : List α) (i : Nat) : α := xs.getD i default

/-- `data.Swap(i, j)`. -/
def aswap [Inhabited α] (xs : List α) (i j : Nat) : List α :=
  (xs.set i (aget xs j)).set j (aget xs i)

/-- Inner loop of `insertionSort_func`: shift `data[j]` left while it is less
than its predecessor (and `j > a`); structural recursion on `j`, which the
loop decrements (at `j = 0` the `j > a` guard is false). -/
def insertionSortInner [Inhabited α] (lt : α → α → Bool) : List α → Nat → Nat → List α
  | xs, j + 1, a =>
    if a < j + 1 ∧ lt (aget xs (j + 1)) (aget xs j) then
      insertionSortInner lt (aswap xs (j + 1) j) j a
    else xs
  | xs, 0, _ => xs

/-- Outer loop of `insertionSort_func` over `i = a+1 … b-1`, expressed by its
remaining trip count `n = b - i`. -/
def insertionSortLoopN [Inhabited α] (lt : α → α → Bool) : List α → Nat → Nat → Nat → List α
  | xs, _, 0, _ => xs
  | xs, i, n + 1, a => insertionSortLoopN lt (insertionSortInner lt xs i a) (i + 1) n a

/-- `insertionSort_func(data, a, b)`. -/
def insertionSortRange [Inhabited α] (lt : α → α → Bool) (xs : List α) (a b : Nat) :
    List α :=
  insertionSortLoopN lt xs (a + 1) (b - (a + 1)) a

/-- `siftDown_func(data, lo, hi, first)` with `root` as the loop variable;
`fuel` (passed as `hi + 1` by the callers) strictly exceeds the iteration
count, since `root` at least doubles towards `hi` each round. -/
def siftDownLoopN [Inhabited α] (lt : α → α → Bool) :
    List α → Nat → Nat → Nat → Nat → List α
  | xs, _, _, _, 0 => xs
  | xs, root, hi, first, fuel + 1 =>
    if 2 * root + 1 < hi then
      if 2 * root + 2 < hi ∧
          lt (aget xs (first + (2 * root + 1))) (aget xs (first + (2 * root + 2))) then
        if lt (aget xs (first + root)) (aget xs (first + (2 * root + 2))) then
          siftDownLoopN lt (aswap xs (first + root) (first + (2 * root + 2)))
            (2 * root + 2) hi first fuel
        else xs
      else
        if lt (aget xs (first + root)) (aget xs (first + (2 * root + 1))) then
          siftDownLoopN lt (aswap xs (first + root) (first + (2 * root + 1)))
            (2 * root + 1) hi first fuel
        else xs
    else xs

/-- `siftDown_func(data, lo, hi, first)`. -/
def siftDownLoop [Inhabited α] (lt : α → α → Bool) (xs : List α)
    (root hi first : Nat) : List α :=
  siftDownLoopN lt xs root hi first (hi + 1)

/-- Heap-building loop of `heapSort_func`: `siftDown` at `i, i-1, …, 0`. -/
def heapBuild [Inhabited α] (lt : α → α → Bool) (xs : List α) (i hi first : Nat) :
    List α :=
  let xs := siftDownLoop lt xs i hi first
  match i with
  | 0 => xs
  | i' + 1 => heapBuild lt xs i' hi first

/-- Pop loop of `heapSort_func`: swap the maximum to position `i` and sift,
for `i, i-1, …, 0` (the Go loop starts at `hi-1`; a one-element heap makes
both the swap and the sift no-ops, matching Go's empty iteration). -/
def heapPop [Inhabited α] (lt : α → α → Bool) (xs : List α) (i first : Nat) :
    List α :=
  let xs := siftDownLoop lt (aswap xs first (first + i)) 0 i first
  match i with
  | 0 => xs
  | i' + 1 => heapPop lt xs i' first

/-- `heapSort_func(data, a, b)`. -/
def heapSortRange [Inhabited α] (lt : α → α → Bool) (xs : List α) (a b : Nat) :
    List α :=
  let first := a
  let hi := b - a
  heapPop lt (heapBuild lt xs ((hi - 1) / 2) hi first) (hi - 1) first

/-- Scan `for i <= j && data.Less(i, a) { i++ }` of `partition_func`,
expressed by the remaining width `n = j + 1 - i` (so `i ≤ j` is `n > 0`). -/
def partScanIN [Inhabited α] (lt : α → α → Bool) (xs : List α) (a : Nat) :
    Nat → Nat → Nat
  | i, 0 => i
  | i, n + 1 => if lt (aget xs i) (aget xs a) then partScanIN lt xs a (i + 1) n else i

/-- `partScanIN` entered at width `j + 1 - i`. -/
def partScanI [Inhabited α] (lt : α → α → Bool) (xs : List α) (i j a : Nat) : Nat :=
  partScanIN lt xs a i (j + 1 - i)

/-- Scan `for i <= j && !data.Less(j, a) { j-- }` of `partition_func`,
expressed by the same remaining width. -/
def partScanJN [Inhabited α] (lt : α → α → Bool) (xs : List α) (a : Nat) :
    Nat → Nat → Nat
  | j, 0 => j
  | j, n + 1 => if ¬lt (aget xs j) (aget xs a) then partScanJN lt xs a (j - 1) n else j

/-- `partScanJN` entered at width `j + 1 - i`. -/
def partScanJ [Inhabited α] (lt : α → α → Bool) (xs : List α) (i j a : Nat) : Nat :=
  partScanJN lt xs a j (j + 1 - i)

/-- The swap loop of `partition_func` after the first unguarded swap; `fuel`
(entered at `j + 2 - i`) strictly exceeds the iteration count, since `i` and
`j` close in on each other by at least two per round. -/
def partitionLoopN [Inhabited α] (lt : α → α → Bool) :
    List α → Nat → Nat → Nat → Nat → List α × Nat
  | xs, _, j, _, 0 => (xs, j)
  | xs, i, j, a, fuel + 1 =>
    let i' := partScanI lt xs i j a
    let j' := partScanJ lt xs i' j a
    if i' > j' then (xs, j')
    else partitionLoopN lt (aswap xs i' j') (i' + 1) (j' - 1) a fuel

/-- `partition_func(data, a, b, pivot) -> (newpivot, alreadyPartitioned)`. -/
def partitionFunc [Inhabited α] (lt : α → α → Bool) (xs : List α) (a b pivot : Nat) :
    List α × Nat × Bool :=
  let xs := aswap xs a pivot
  let i := partScanI lt xs (a + 1) (b - 1) a
  let j := partScanJ lt xs i (b - 1) a
  if i > j then (aswap xs j a, j, true)
  else
    let xs := aswap xs i j
    let (xs, jj) := partitionLoopN lt xs (i + 1) (j - 1) a (j + 1 - i)
    (aswap xs jj a, jj, false)

/-- Scan `for i <= j && !data.Less(a, i) { i++ }` of `partitionEqual_func`,
by remaining width. -/
def partEqScanIN [Inhabited α] (lt : α → α → Bool) (xs : List α) (a : Nat) :
    Nat → Nat → Nat
  | i, 0 => i
  | i, n + 1 =>
    if ¬lt (aget xs a) (aget xs i) then partEqScanIN lt xs a (i + 1) n else i

/-- `partEqScanIN` entered at width `j + 1 - i`. -/
def partEqScanI [Inhabited α] (lt : α → α → Bool) (xs : List α) (i j a : Nat) : Nat :=
  partEqScanIN lt xs a i (j + 1 - i)

/-- Scan `for i <= j && data.Less(a, j) { j-- }` of `partitionEqual_func`,
by remaining width. -/
def partEqScanJN [Inhabited α] (lt : α → α → Bool) (xs : List α) (a : Nat) :
    Nat → Nat → Nat
  | j, 0 => j
  | j, n + 1 => if lt (aget xs a) (aget xs j) then partEqScanJN lt xs a (j - 1) n else j

/-- `partEqScanJN` entered at width `j + 1 - i`. -/
def partEqScanJ [Inhabited α] (lt : α → α → Bool) (xs : List α) (i j a : Nat) : Nat :=
  partEqScanJN lt xs a j (j + 1 - i)

/-- The swap loop of `partitionEqual_func`; returns the final `i` as the new
pivot.  `fuel` as in `partitionLoopN`. -/
def partitionEqualLoopN [Inhabited α] (lt : α → α → Bool) :
    List α → Nat → Nat → Nat → Nat → List α × Nat
  | xs, i, _, _, 0 => (xs, i)
  | xs, i, j, a, fuel + 1 =>
    let i' := partEqScanI lt xs i j a
    let j' := partEqScanJ lt xs i' j a
    if i' > j' then (xs, i')
    else partitionEqualLoopN lt (aswap xs i' j') (i' + 1) (j' - 1) a fuel

/-- `partitionEqual_func(data, a, b, pivot) -> newpivot`. -/
def partitionEqualFunc [Inhabited α] (lt : α → α → Bool) (xs : List α)
    (a b pivot : Nat) : List α × Nat :=
  partitionEqualLoopN lt (aswap xs a pivot) (a + 1) (b - 1) a (b + 1 - a)

/-- Scan `for i < b && !data.Less(i, i-1) { i++ }` of
`partialInsertionSort_func`, by remaining width `n = b - i`. -/
def paisScanN [Inhabited α] (lt : α → α → Bool) (xs : List α) : Nat → Nat → Nat
  | i, 0 => i
  | i, n + 1 =>
    if ¬lt (aget xs i) (aget xs (i - 1)) then paisScanN lt xs (i + 1) n else i

/-- `paisScanN` entered at width `b - i`. -/
def paisScan [Inhabited α] (lt : α → α → Bool) (xs : List α) (i b : Nat) : Nat :=
  paisScanN lt xs i (b - i)

/-- Left-shift loop of `partialInsertionSort_func`:
`for j := i-1; j >= 1; j--`; structural on `j`. -/
def shiftLeftLoop [Inhabited α] (lt : α → α → Bool) : List α → Nat → List α
  | xs, j + 1 =>
    if lt (aget xs (j + 1)) (aget xs j) then shiftLeftLoop lt (aswap xs (j + 1) j) j
    else xs
  | xs, 0 => xs

/-- Right-shift loop of `partialInsertionSort_func`:
`for j := i+1; j < b; j++`, by remaining width `n = b - j`. -/
def shiftRightLoopN [Inhabited α] (lt : α → α → Bool) : List α → Nat → Nat → List α
  | xs, _, 0 => xs
  | xs, j, n + 1 =>
    if lt (aget xs j) (aget xs (j - 1)) then
      shiftRightLoopN lt (aswap xs j (j - 1)) (j + 1) n
    else xs

/-- `shiftRightLoopN` entered at width `b - j`. -/
def shiftRightLoop [Inhabited α] (lt : α → α → Bool) (xs : List α) (j b : Nat) :
    List α :=
  shiftRightLoopN lt xs j (b - j)

/-- The step-bounded loop of `partialInsertionSort_func` (`maxSteps = 5`,
`shortestShifting = 50`); returns the data and whether the range is now
sorted. -/
def partialInsertionSortLoop [Inhabited α] (lt : α → α → Bool) (xs : List α)
    (i a b : Nat) : Nat → List α × Bool
  | 0 => (xs, false)
  | steps + 1 =>
    let i := paisScan lt xs i b
    if i = b then (xs, true)
    else if b - a < 50 then (xs, false)
    else
      let xs := aswap xs i (i - 1)
      let xs := if 2 ≤ i - a then shiftLeftLoop lt xs (i - 1) else xs
      let xs := if 2 ≤ b - i then shiftRightLoop lt xs (i + 1) b else xs
      partialInsertionSortLoop lt xs i a b steps

/-- `partialInsertionSort_func(data, a, b)`. -/
def partialInsertionSortFunc [Inhabited α] (lt : α → α → Bool) (xs : List α)
    (a b : Nat) : List α × Bool :=
  partialInsertionSortLoop lt xs (a + 1) a b 5

/-- One step of the `xorshift` pseudo-random generator (a `uint64`,
represented modulo `2^64`). -/
def xorshiftNext (r : Nat) : Nat :=
  let r := (r ^^^ (r <<< 13)) % 2 ^ 64
  let r := r ^^^ (r >>> 7)
  (r ^^^ (r <<< 17)) % 2 ^ 64

/-- `bits.Len(uint(n))`. -/
def goBitsLen (n : Nat) : Nat := if n = 0 then 0 else Nat.log2 n + 1

/-- `nextPowerOfTwo(length) = 1 << bits.Len(uint(length))`. -/
def nextPowerOfTwo (length : Nat) : Nat := 1 <<< goBitsLen length

/-- `breakPatterns_func(data, a, b)`: three pseudo-random swaps around the
middle of the range (the generator is seeded with the range length). -/
def breakPatternsFunc [Inhabited α] (xs : List α) (a b : Nat) : List α :=
  let length := b - a
  if 8 ≤ length then
    let modulus := nextPowerOfTwo length
    let idx := a + (length / 4) * 2 - 1
    let r0 := xorshiftNext length
    let o0 := r0 &&& (modulus - 1)
    let o0 := if length ≤ o0 then o0 - length else o0
    let xs := aswap xs (idx - 1) (a + o0)
    let r1 := xorshiftNext r0
    let o1 := r1 &&& (modulus - 1)
    let o1 := if length ≤ o1 then o1 - length else o1
    let xs := aswap xs idx (a + o1)
    let r2 := xorshiftNext r1
    let o2 := r2 &&& (modulus - 1)
    let o2 := if length ≤ o2 then o2 - length else o2
    aswap xs (idx + 1) (a + o2)
  else xs

/-- `reverseRange_func(data, a, b)` as a loop on `(i, j)`; `fuel` (entered at
`j - i`) exceeds the iteration count, since the indices close in by two per
round. -/
def reverseRangeLoopN [Inhabited α] : List α → Nat → Nat → Nat → List α
  | xs, _, _, 0 => xs
  | xs, i, j, fuel + 1 =>
    if i < j then reverseRangeLoopN (aswap xs i j) (i + 1) (j - 1) fuel else xs

/-- `reverseRange_func(data, a, b)`. -/
def reverseRangeFunc [Inhabited α] (xs : List α) (a b : Nat) : List α :=
  reverseRangeLoopN xs a (b - 1) (b - 1 - a)

/-- The three-valued sortedness hint of `choosePivot_func`. -/
inductive SortedHint where
  | increasing
  | decreasing
  | unknown
deriving DecidableEq, Inhabited

/-- `order2_func`: put two indices in value order, counting swaps. -/
def order2 [Inhabited α] (lt : α → α → Bool) (xs : List α) (a b swaps : Nat) :
    Nat × Nat × Nat :=
  if lt (aget xs b) (aget xs a) then (b, a, swaps + 1) else (a, b, swaps)

/-- `median_func`: index of the median of three values, counting swaps. -/
def median [Inhabited α] (lt : α → α → Bool) (xs : List α) (a b c swaps : Nat) :
    Nat × Nat :=
  let (a, b, swaps) := order2 lt xs a b swaps
  let (b, c, swaps) := order2 lt xs b c swaps
  let (_, b, swaps) := order2 lt xs a b swaps
  (b, swaps)

/-- `medianAdjacent_func`: median of `data[a-1], data[a], data[a+1]`. -/
def medianAdjacent [Inhabited α] (lt : α → α → Bool) (xs : List α) (a swaps : Nat) :
    Nat × Nat :=
  median lt xs (a - 1) a (a + 1) swaps

/-- Translate the swap count of `choosePivot_func` into a hint
(`maxSwaps = 4 * 3`). -/
def pivotHint (j swaps : Nat) : Nat × SortedHint :=
  if swaps = 0 then (j, SortedHint.increasing)
  else if swaps = 12 then (j, SortedHint.decreasing)
  else (j, SortedHint.unknown)

/-- `choosePivot_func(data, a, b)` (`shortestNinther = 50`). -/
def choosePivotFunc [Inhabited α] (lt : α → α → Bool) (xs : List α) (a b : Nat) :
    Nat × SortedHint :=
  let l := b - a
  let i := a + l / 4 * 1
  let j := a + l / 4 * 2
  let k := a + l / 4 * 3
  if 8 ≤ l then
    if 50 ≤ l then
      let (i, swaps) := medianAdjacent lt xs i 0
      let (j, swaps) := medianAdjacent lt xs j swaps
      let (k, swaps) := medianAdjacent lt xs k swaps
      let (j, swaps) := median lt xs i j k swaps
      pivotHint j swaps
    else
      let (j, swaps) := median lt xs i j k 0
      pivotHint j swaps
  else pivotHint j 0

/-- `pdqsort_func(data, a, b, limit)` (`maxInsertion = 12`).  The outer
`for` loop is expressed as recursion: a `continue` re-enters with one unit of
`fuel` consumed, and each recursive `pdqsort_func` call starts with fresh
`wasBalanced`/`wasPartitioned` flags, exactly as a new Go invocation does.
The wrapper's fuel strictly exceeds the nesting depth reachable on a list of
its length, so the `0` branch is unreachable. -/
def pdqsortLoop [Inhabited α] (lt : α → α → Bool) :
    Nat → List α → Nat → Nat → Nat → Bool → Bool → List α
  | 0, xs, _, _, _, _, _ => xs
  | fuel + 1, xs, a, b, limit, wasBalanced, wasPartitioned =>
    let length := b - a
    if length ≤ 12 then insertionSortRange lt xs a b
    else if limit = 0 then heapSortRange lt xs a b
    else
      let (xs, limit) :=
        if !wasBalanced then (breakPatternsFunc xs a b, limit - 1) else (xs, limit)
      let (pivot, hint) := choosePivotFunc lt xs a b
      let (xs, pivot, hint) :=
        if hint = SortedHint.decreasing then
          (reverseRangeFunc xs a b, (b - 1) - (pivot - a), SortedHint.increasing)
        else (xs, pivot, hint)
      let (xs, done) :=
        if wasBalanced ∧ wasPartitioned ∧ hint = SortedHint.increasing then
          partialInsertionSortFunc lt xs a b
        else (xs, false)
      if done then xs
      else if 0 < a ∧ ¬lt (aget xs (a - 1)) (aget xs pivot) then
        let (xs, mid) := partitionEqualFunc lt xs a b pivot
        pdqsortLoop lt fuel xs mid b limit wasBalanced wasPartitioned
      else
        let (xs, mid, alreadyPartitioned) := partitionFunc lt xs a b pivot
        let wasPartitioned := alreadyPartitioned
        let balanceThreshold := length / 8
        let wasBalanced := decide (balanceThreshold ≤ min (mid - a) (b - mid))
        if mid - a < b - mid then
          let xs := pdqsortLoop lt fuel xs a mid limit true true
          pdqsortLoop lt fuel xs (mid + 1) b limit wasBalanced wasPartitioned
        else
          let xs := pdqsortLoop lt fuel xs (mid + 1) b limit true true
          pdqsortLoop lt fuel xs a mid limit wasBalanced wasPartitioned

/-- `sort.Slice(x, less)`: `limit := bits.Len(uint(length))`, then
`pdqsort(0, length, limit)`. -/
def goSortSlice [Inhabited α] (lt : α → α → Bool) (xs : List α) : List α :=
  pdqsortLoop lt (xs.length * xs.length + xs.length + 64) xs 0 xs.length
    (goBitsLen xs.length) true true

/-- The assembler's sort-and-resequence steps, with `sort.Slice` embedded as
`goSortSlice segLess`. -/
def sortAndResequence (l : List Segment) : List Segment :=
  resequence 0 (goSortSlice segLess l)

/-- Key-monotonicity over positions: what "sorted" means for the raw index
accesses the sort performs. -/
def keysMono (l : List Segment) : Prop :=
  ∀ i j, i ≤ j → j < l.length →
    startKey (aget l i).Start ≤ startKey (aget l j).Start


theorem chain'_keysMono {l : List Segment} (h : List.Chain' segLE l) : keysMono l := by
  haveI : IsTrans Segment segLE := ⟨fun _ _ _ hab hbc => Nat.le_trans hab hbc⟩
  have hp := List.chain'_iff_pairwise.mp h
  intro i j hij hj
  rcases Nat.lt_or_ge i j with hlt | hge
  · have hi : i < l.length := lt_trans hlt hj
    have hpg := List.pairwise_iff_get.mp hp ⟨i, hi⟩ ⟨j, hj⟩ hlt
    simp only [List.get_eq_getElem, segLE] at hpg
    rw [show aget l i = l[i] from List.getD_eq_getElem l default hi,
        show aget l j = l[j] from List.getD_eq_getElem l default hj]
    exact hpg
  · have hij' : i = j := by omega
    subst hij'
    exact le_refl _

theorem segLess_false_of_le {x y : Segment}
    (h : startKey x.Start ≤ startKey y.Start) : ¬segLess y x = true := by
  simp only [segLess, decide_eq_true_eq]
  omega

theorem paisScanN_of_mono (xs : List Segment) (hmono : keysMono xs) :
    ∀ n i, i + n ≤ xs.length → paisScanN segLess xs i n = i + n := by
  intro n
  induction n with
  | zero => intro i h; rfl
  | succ n ih =>
    intro i h
    unfold paisScanN
    rw [if_pos (segLess_false_of_le (hmono (i - 1) i (by omega) (by omega))),
        ih (i + 1) (by omega)]
    omega

theorem paisScan_of_mono (xs : List Segment) (hmono : keysMono xs) (i b : Nat)
    (hib : i ≤ b) (hb : b ≤ xs.length) : paisScan segLess xs i b = b := by
  unfold paisScan
  rw [paisScanN_of_mono xs hmono (b - i) i (by omega)]
  omega

theorem partialInsertionSort_of_mono (xs : List Segment) (hmono : keysMono xs)
    (b : Nat) (hb : b = xs.length) (hb1 : 1 ≤ b) :
    partialInsertionSortFunc segLess xs 0 b = (xs, true) := by
  unfold partialInsertionSortFunc partialInsertionSortLoop
  rw [paisScan_of_mono xs hmono 1 b hb1 (le_of_eq hb)]
  simp

theorem order2_of_le (xs : List Segment) (p q : Nat)
    (h : startKey (aget xs p).Start ≤ startKey (aget xs q).Start) (s : Nat) :
    order2 segLess xs p q s = (p, q, s) := by
  unfold order2
  rw [if_neg (segLess_false_of_le h)]

theorem median_of_mono (xs : List Segment) (hmono : keysMono xs) {p q r : Nat}
    (hpq : p ≤ q) (hqr : q ≤ r) (hr : r < xs.length) (s : Nat) :
    median segLess xs p q r s = (q, s) := by
  unfold median
  simp only [order2_of_le xs p q (hmono p q hpq (by omega)),
             order2_of_le xs q r (hmono q r hqr hr)]

theorem medianAdjacent_of_mono (xs : List Segment) (hmono : keysMono xs) {t : Nat}
    (ht : t + 1 < xs.length) (s : Nat) :
    medianAdjacent segLess xs t s = (t, s) := by
  unfold medianAdjacent
  exact median_of_mono xs hmono (by omega) (by omega) ht s

theorem choosePivot_of_mono (xs : List Segment) (hmono : keysMono xs) (n : Nat)
    (hn : 13 ≤ n) (hlen : n = xs.length) :
    ∃ p, choosePivotFunc segLess xs 0 n = (p, SortedHint.increasing) := by
  unfold choosePivotFunc
  rw [if_pos (by omega : 8 ≤ n - 0)]
  by_cases h50 : 50 ≤ n - 0
  · rw [if_pos h50]
    have hi1 : (0 + (n - 0) / 4 * 1) + 1 < xs.length := by omega
    have hi2 : (0 + (n - 0) / 4 * 2) + 1 < xs.length := by omega
    have hi3 : (0 + (n - 0) / 4 * 3) + 1 < xs.length := by omega
    simp only [medianAdjacent_of_mono xs hmono hi1,
               medianAdjacent_of_mono xs hmono hi2,
               medianAdjacent_of_mono xs hmono hi3,
               median_of_mono xs hmono (by omega : 0 + (n - 0) / 4 * 1 ≤ 0 + (n - 0) / 4 * 2)
                 (by omega : 0 + (n - 0) / 4 * 2 ≤ 0 + (n - 0) / 4 * 3) (by omega)]
    exact ⟨_, rfl⟩
  · rw [if_neg h50]
    simp only [median_of_mono xs hmono (by omega : 0 + (n - 0) / 4 * 1 ≤ 0 + (n - 0) / 4 * 2)
                 (by omega : 0 + (n - 0) / 4 * 2 ≤ 0 + (n - 0) / 4 * 3)
                 (by omega : 0 + (n - 0) / 4 * 3 < xs.length)]
    exact ⟨_, rfl⟩

theorem insertionSortInner_of_mono (xs : List Segment) (hmono : keysMono xs)
    (j a : Nat) (hj : j < xs.length) :
    insertionSortInner segLess xs j a = xs := by
  cases j with
  | zero => rfl
  | succ j =>
    unfold insertionSortInner
    rw [if_neg]
    rintro ⟨h1, h2⟩
    exact segLess_false_of_le (hmono j (j + 1) (by omega) hj) h2

theorem insertionSortLoopN_of_mono (xs : List Segment) (hmono : keysMono xs)
    (a : Nat) : ∀ n i, i + n ≤ xs.length → insertionSortLoopN segLess xs i n a = xs := by
  intro n
  induction n with
  | zero => intro i h; rfl
  | succ n ih =>
    intro i h
    unfold insertionSortLoopN
    rw [insertionSortInner_of_mono xs hmono i a (by omega)]
    exact ih (i + 1) (by omega)

theorem insertionSortRange_of_mono (xs : List Segment) (hmono : keysMono xs)
    (a b : Nat) (hb : b ≤ xs.length) :
    insertionSortRange segLess xs a b = xs := by
  unfold insertionSortRange
  rcases le_or_lt b (a + 1) with hba | hba
  · rw [Nat.sub_eq_zero_of_le hba]
    rfl
  · exact insertionSortLoopN_of_mono xs hmono a (b - (a + 1)) (a + 1) (by omega)

/-- The `fuel + 1` unfolding of `pdqsortLoop`, stated once so later proofs can
rewrite with it directly. -/
theorem pdqsortLoop_succ_eq [Inhabited α] (lt : α → α → Bool) (fuel : Nat)
    (xs : List α) (a b limit : Nat) (wasBalanced wasPartitioned : Bool) :
    pdqsortLoop lt (fuel + 1) xs a b limit wasBalanced wasPartitioned =
      (let length := b - a
       if length ≤ 12 then insertionSortRange lt xs a b
       else if limit = 0 then heapSortRange lt xs a b
       else
         let (xs, limit) :=
           if !wasBalanced then (breakPatternsFunc xs a b, limit - 1) else (xs, limit)
         let (pivot, hint) := choosePivotFunc lt xs a b
         let (xs, pivot, hint) :=
           if hint = SortedHint.decreasing then
             (reverseRangeFunc xs a b, (b - 1) - (pivot - a), SortedHint.increasing)
           else (xs, pivot, hint)
         let (xs, done) :=
           if wasBalanced ∧ wasPartitioned ∧ hint = SortedHint.increasing then
             partialInsertionSortFunc lt xs a b
           else (xs, false)
         if done then xs
         else if 0 < a ∧ ¬lt (aget xs (a - 1)) (aget xs pivot) then
           let (xs, mid) := partitionEqualFunc lt xs a b pivot
           pdqsortLoop lt fuel xs mid b limit wasBalanced wasPartitioned
         else
           let (xs, mid, alreadyPartitioned) := partitionFunc lt xs a b pivot
           let wasPartitioned := alreadyPartitioned
           let balanceThreshold := length / 8
           let wasBalanced := decide (balanceThreshold ≤ min (mid - a) (b - mid))
           if mid - a < b - mid then
             let xs := pdqsortLoop lt fuel xs a mid limit true true
             pdqsortLoop lt fuel xs (mid + 1) b limit wasBalanced wasPartitioned
           else
             let xs := pdqsortLoop lt fuel xs (mid + 1) b limit true true
             pdqsortLoop lt fuel xs a mid limit wasBalanced wasPartitioned) := rfl

set_option maxHeartbeats 1000000 in
/-- A list that is already sorted by the parsed start-time keys passes
through the embedded `sort.Slice` unchanged: for short ranges insertion sort
never shifts, and for longer ones `choosePivot` reports an increasing hint
and `partialInsertionSort` confirms sortedness without modifying anything. -/
theorem goSortSlice_of_chain (l : List Segment) (h : List.Chain' segLE l) :
    goSortSlice segLess l = l := by
  have hmono := chain'_keysMono h
  unfold goSortSlice
  obtain ⟨f, hf⟩ : ∃ f, l.length * l.length + l.length + 64 = f + 1 :=
    ⟨l.length * l.length + l.length + 63, by omega⟩
  rw [hf, pdqsortLoop_succ_eq]
  by_cases h12 : l.length - 0 ≤ 12
  · rw [if_pos h12]
    exact insertionSortRange_of_mono l hmono 0 l.length (le_refl _)
  · rw [if_neg h12]
    have hn13 : 13 ≤ l.length := by omega
    have hlim : ¬goBitsLen l.length = 0 := by
      unfold goBitsLen
      rw [if_neg (by omega : ¬l.length = 0)]
      omega
    rw [if_neg hlim]
    obtain ⟨piv, hpiv⟩ := choosePivot_of_mono l hmono l.length hn13 rfl
    have hpais := partialInsertionSort_of_mono l hmono l.length rfl (by omega)
    simp only [Bool.not_true, Bool.false_eq_true, if_false, hpiv, hpais,
      if_neg (show SortedHint.increasing ≠ SortedHint.decreasing from by decide),
      and_true, true_and, eq_self_iff_true, if_true]

theorem resequence_eq_self (k : Nat) (l : List Segment)
    (h : ∀ i (hi : i < l.length),
      (l.get ⟨i, hi⟩).SequenceNumber = ((k + i : Nat) : Int)) :
    resequence k l = l := by
  induction l generalizing k with
  | nil => rfl
  | cons s rest ih =>
    have h0 := h 0 (by simp)
    have hrest : ∀ i (hi : i < rest.length),
        (rest.get ⟨i, hi⟩).SequenceNumber = (((k + 1) + i : Nat) : Int) := by
      intro i hi
      have := h (i + 1) (by simpa using Nat.succ_lt_succ hi)
      have harith : k + (i + 1) = (k + 1) + i := by omega
      simpa [harith] using this
    rw [resequence, ih (k + 1) hrest]
    obtain ⟨sn, st, se, sc⟩ := s
    simp only [List.get] at h0
    simp_all

/-- C9 (amended): the sort is not stable, but applying the assembler's
sort-and-resequence steps to an already-sorted, already-sequenced segment
list returns it unchanged. -/
theorem sort_resequence_identity (l : List Segment)
    (hsorted : List.Chain' segLE l)
    (hseq : ∀ i (h : i < l.length), (l.get ⟨i, h⟩).SequenceNumber = (i : Int)) :
    sortAndResequence l = l := by
  unfold sortAndResequence
  rw [goSortSlice_of_chain l hsorted]
  refine resequence_eq_self 0 l ?_
  intro i hi
  simpa using hseq i hi

/-- Witness for the amended C9: a concrete sorted, sequenced two-segment
timeline is returned identically. -/
theorem sort_resequence_identity_witness :
    sortAndResequence
      [⟨0, "00:00:01".toList, "00:00:02".toList, ['a']⟩,
       ⟨1, "00:00:02".toList, "00:00:03".toList, ['b']⟩] =
      [⟨0, "00:00:01".toList, "00:00:02".toList, ['a']⟩,
       ⟨1, "00:00:02".toList, "00:00:03".toList, ['b']⟩] :=
  sort_resequence_identity
    [⟨0, "00:00:01".toList, "00:00:02".toList, ['a']⟩,
     ⟨1, "00:00:02".toList, "00:00:03".toList, ['b']⟩]
    (by
      refine List.chain'_cons.mpr ⟨?_, List.chain'_singleton _⟩
      show startKey "00:00:01".toList ≤ startKey "00:00:02".toList
      decide)
    (by decide)

/-- Thirteen segments — the smallest ranges on which `sort.Slice` leaves
insertion sort behind — with a tie on key 5 between the first two elements
(scripts `A` then `B`) and the remaining keys arranged so that the pivot
partitioning moves the tied pair. -/
def tieExample : List Segment :=
  [⟨0, "00:00:05".toList, "00:00:59".toList, ['A']⟩,
   ⟨0, "00:00:05".toList, "00:00:59".toList, ['B']⟩,
   ⟨0, "00:00:00".toList, "00:00:59".toList, ['c']⟩,
   ⟨0, "00:00:01".toList, "00:00:59".toList, ['d']⟩,
   ⟨0, "00:00:02".toList, "00:00:59".toList, ['e']⟩,
   ⟨0, "00:00:03".toList, "00:00:59".toList, ['f']⟩,
   ⟨0, "00:00:04".toList, "00:00:59".toList, ['g']⟩,
   ⟨0, "00:00:06".toList, "00:00:59".toList, ['h']⟩,
   ⟨0, "00:00:07".toList, "00:00:59".toList, ['i']⟩,
   ⟨0, "00:00:08".toList, "00:00:59".toList, ['j']⟩,
   ⟨0, "00:00:09".toList, "00:00:59".toList, ['k']⟩,
   ⟨0, "00:00:10".toList, "00:00:59".toList, ['l']⟩,
   ⟨0, "00:00:11".toList, "00:00:59".toList, ['m']⟩]

/-- C9 counterexample: the two segments with equal parsed start time arrive
as `A` before `B` but leave the assembler's sort as `B` before `A` — the
sort (Go's `sort.Slice`, i.e. pdqsort) is not stable, so equal-key segments
do not keep their original relative order. -/
theorem c9_counterexample :
    startKey (aget tieExample 0).Start = startKey (aget tieExample 1).Start ∧
    tieExample.map (fun s => s.Script) =
      [['A'], ['B'], ['c'], ['d'], ['e'], ['f'], ['g'], ['h'], ['i'], ['j'],
       ['k'], ['l'], ['m']] ∧
    (goSortSlice segLess tieExample).map (fun s => s.Script) =
      [['c'], ['d'], ['e'], ['f'], ['g'], ['B'], ['A'], ['h'], ['i'], ['j'],
       ['k'], ['l'], ['m']] := by
  refine ⟨by decide, by decide, by decide⟩
